import Mathlib

/-!
Verification development for the DSL expression-simplification engine
(`src/dsl/var.py`, the converged `Language`/`LanguageTypes`/`LanguageOps`
variant, and `src/dsl/core/var.py` for the flattened-key variant).

Python values are modelled shallowly:
* structural keys (`VarExpr.key`, tuples of strings/ints/bools/tuples)
  become the inductive `Key`; Python tuple comparison (used by `sorted`)
  becomes `keyCmp`;
* expression trees become the inductive `Expr`;
* `simplify` is fuel-indexed (`Option` result, `none` = fuel exhausted)
  because the source recursion is not structurally decreasing
  (e.g. `VarNot.simplify` re-simplifies the result of a De Morgan rewrite,
  and `VarAdd._rebuild_terms` can loop for dialects lacking `Mul`);
* the operator-overload layer (`VarExpr._dispatch_binop`, `__invert__`)
  returns `Except String` so that its `TypeError`s are observable.
-/

namespace DSLVar

/-- Three-way comparison from a linear order; mirrors how Python compares
two values of the same type with `<` / `==`. -/
def cmpv {α : Type _} [LinearOrder α] (a b : α) : Ordering :=
  if a < b then .lt else if a = b then .eq else .gt

theorem cmpv_eq_lt {α : Type _} [LinearOrder α] {a b : α} :
    cmpv a b = .lt ↔ a < b := by
  unfold cmpv; split_ifs with h1 h2 <;> simp_all

theorem cmpv_eq_eq {α : Type _} [LinearOrder α] {a b : α} :
    cmpv a b = .eq ↔ a = b := by
  unfold cmpv; split_ifs with h1 h2 <;> simp_all
  exact ne_of_lt h1

theorem cmpv_eq_gt {α : Type _} [LinearOrder α] {a b : α} :
    cmpv a b = .gt ↔ b < a := by
  unfold cmpv; split_ifs with h1 h2 <;> simp_all
  · exact le_of_lt h1
  · exact lt_of_le_of_ne h1 (fun h => h2 h.symm)

theorem cmpv_self {α : Type _} [LinearOrder α] (a : α) : cmpv a a = .eq :=
  cmpv_eq_eq.mpr rfl

theorem cmpv_swap {α : Type _} [LinearOrder α] (a b : α) :
    (cmpv a b).swap = cmpv b a := by
  rcases h : cmpv b a with _ | _ | _
  · have := cmpv_eq_lt.mp h
    have : cmpv a b = .gt := cmpv_eq_gt.mpr this
    simp [this, Ordering.swap]
  · have := cmpv_eq_eq.mp h
    have : cmpv a b = .eq := cmpv_eq_eq.mpr this.symm
    simp [this, Ordering.swap]
  · have := cmpv_eq_gt.mp h
    have : cmpv a b = .lt := cmpv_eq_lt.mpr this
    simp [this, Ordering.swap]

theorem cmpv_trans_lt {α : Type _} [LinearOrder α] {a b c : α}
    (h1 : cmpv a b = .lt) (h2 : cmpv b c = .lt) : cmpv a c = .lt :=
  cmpv_eq_lt.mpr (lt_trans (cmpv_eq_lt.mp h1) (cmpv_eq_lt.mp h2))

/-!
## Structural keys of the final variant (`src/dsl/var.py`)

`VarExpr.key()` returns `(self.TYPE, *self.args())` (var.py:212-213), with
* leaves: `("bool", b)`, `("int", n)`, `("string", s)`, `("name", s)`,
  `("null",)` (VarConst.args / VarName.args / VarNull.args);
* unary: `("not", child.key())` (VarUnaryOp.args, var.py:244-245);
* binary: `(TYPE, left.key(), right.key())` (VarBinaryOp.args, var.py:261-262).
Neither `VarAnd` nor `VarOr` overrides `key`/`args` in this variant.
-/

inductive Key where
  | kbool (b : Bool)
  | kint (n : Int)
  | kstring (s : List Char)
  | kname (s : List Char)
  | knull
  | knot (k : Key)
  | kand (l r : Key)
  | kor (l r : Key)
  | kadd (l r : Key)
  | ksub (l r : Key)
  | kmul (l r : Key)
  | kdiv (l r : Key)
deriving DecidableEq, Repr

/-- The rank of a key's leading `TYPE` string under Python string
comparison: "add" < "and" < "bool" < "div" < "int" < "mul" < "name"
< "not" < "null" < "or" < "string" < "sub". -/
def tagRank : Key → Nat
  | .kadd _ _ => 0
  | .kand _ _ => 1
  | .kbool _ => 2
  | .kdiv _ _ => 3
  | .kint _ => 4
  | .kmul _ _ => 5
  | .kname _ => 6
  | .knot _ => 7
  | .knull => 8
  | .kor _ _ => 9
  | .kstring _ => 10
  | .ksub _ _ => 11

/-- Python tuple comparison on keys: compare the `TYPE` strings first,
then the payload left to right.  Payload elements of equal position and
equal tag always have the same type (bool, int, str, or nested key), so
the comparison is total. -/
def keyCmp : Key → Key → Ordering
  | .kbool a, .kbool b => cmpv a b
  | .kint a, .kint b => cmpv a b
  | .kstring a, .kstring b => cmpv a b
  | .kname a, .kname b => cmpv a b
  | .knull, .knull => .eq
  | .knot a, .knot b => keyCmp a b
  | .kand a1 a2, .kand b1 b2 => (keyCmp a1 b1).then (keyCmp a2 b2)
  | .kor a1 a2, .kor b1 b2 => (keyCmp a1 b1).then (keyCmp a2 b2)
  | .kadd a1 a2, .kadd b1 b2 => (keyCmp a1 b1).then (keyCmp a2 b2)
  | .ksub a1 a2, .ksub b1 b2 => (keyCmp a1 b1).then (keyCmp a2 b2)
  | .kmul a1 a2, .kmul b1 b2 => (keyCmp a1 b1).then (keyCmp a2 b2)
  | .kdiv a1 a2, .kdiv b1 b2 => (keyCmp a1 b1).then (keyCmp a2 b2)
  | a, b => cmpv (tagRank a) (tagRank b)

/-- Boolean `<=` used to model Python's ascending stable sort by key. -/
def keyLe (a b : Key) : Bool := keyCmp a b ≠ Ordering.gt

/-- Payload comparison of two keys with the same leading tag (arbitrary
`.eq` on mismatched tags, where it is never consulted). -/
def payCmp : Key → Key → Ordering
  | .kbool a, .kbool b => cmpv a b
  | .kint a, .kint b => cmpv a b
  | .kstring a, .kstring b => cmpv a b
  | .kname a, .kname b => cmpv a b
  | .knull, .knull => .eq
  | .knot a, .knot b => keyCmp a b
  | .kand a1 a2, .kand b1 b2 => (keyCmp a1 b1).then (keyCmp a2 b2)
  | .kor a1 a2, .kor b1 b2 => (keyCmp a1 b1).then (keyCmp a2 b2)
  | .kadd a1 a2, .kadd b1 b2 => (keyCmp a1 b1).then (keyCmp a2 b2)
  | .ksub a1 a2, .ksub b1 b2 => (keyCmp a1 b1).then (keyCmp a2 b2)
  | .kmul a1 a2, .kmul b1 b2 => (keyCmp a1 b1).then (keyCmp a2 b2)
  | .kdiv a1 a2, .kdiv b1 b2 => (keyCmp a1 b1).then (keyCmp a2 b2)
  | _, _ => .eq

theorem keyCmp_eq_then (a b : Key) :
    keyCmp a b = (cmpv (tagRank a) (tagRank b)).then (payCmp a b) := by
  cases a <;> cases b <;>
    simp [keyCmp, payCmp, tagRank, cmpv_self, cmpv, Ordering.then]

theorem keyCmp_self (a : Key) : keyCmp a a = .eq := by
  induction a <;> simp [keyCmp, cmpv_self, Ordering.then, *]

theorem keyCmp_eq_iff (a b : Key) : keyCmp a b = .eq ↔ a = b := by
  induction a generalizing b <;> cases b <;>
    simp [keyCmp, cmpv_eq_eq, Ordering.then_eq_eq, tagRank, *]

theorem keyCmp_swap (a b : Key) : (keyCmp a b).swap = keyCmp b a := by
  induction a generalizing b <;> cases b <;>
    simp only [keyCmp, Ordering.swap_then, cmpv_swap, *] <;> try rfl

theorem keyCmp_then_lex {a1 a2 b1 b2 c1 c2 : Key}
    (ih1 : ∀ u v, keyCmp a1 u = .lt → keyCmp u v = .lt → keyCmp a1 v = .lt)
    (ih2 : ∀ u v, keyCmp a2 u = .lt → keyCmp u v = .lt → keyCmp a2 v = .lt)
    (h1 : (keyCmp a1 b1).then (keyCmp a2 b2) = .lt)
    (h2 : (keyCmp b1 c1).then (keyCmp b2 c2) = .lt) :
    (keyCmp a1 c1).then (keyCmp a2 c2) = .lt := by
  rw [Ordering.then_eq_lt] at h1 h2 ⊢
  rcases h1 with h1 | ⟨h1e, h1r⟩
  · rcases h2 with h2 | ⟨h2e, h2r⟩
    · exact Or.inl (ih1 _ _ h1 h2)
    · obtain rfl : b1 = c1 := (keyCmp_eq_iff _ _).mp h2e
      exact Or.inl h1
  · obtain rfl : a1 = b1 := (keyCmp_eq_iff _ _).mp h1e
    rcases h2 with h2 | ⟨h2e, h2r⟩
    · exact Or.inl h2
    · obtain rfl : a1 = c1 := (keyCmp_eq_iff _ _).mp h2e
      exact Or.inr ⟨keyCmp_self _, ih2 _ _ h1r h2r⟩

theorem keyCmp_lt_cases {a b : Key} (h : keyCmp a b = .lt) :
    tagRank a < tagRank b ∨ (tagRank a = tagRank b ∧ payCmp a b = .lt) := by
  rw [keyCmp_eq_then, Ordering.then_eq_lt] at h
  rcases h with h | ⟨he, hp⟩
  · exact Or.inl (cmpv_eq_lt.mp h)
  · exact Or.inr ⟨cmpv_eq_eq.mp he, hp⟩

theorem rank_lt_keyCmp {a b : Key} (h : tagRank a < tagRank b) : keyCmp a b = .lt := by
  rw [keyCmp_eq_then, Ordering.then_eq_lt]
  exact Or.inl (cmpv_eq_lt.mpr h)

theorem rank_eq_pay_keyCmp {a b : Key} (he : tagRank a = tagRank b)
    (hp : payCmp a b = .lt) : keyCmp a b = .lt := by
  rw [keyCmp_eq_then, Ordering.then_eq_lt]
  exact Or.inr ⟨cmpv_eq_eq.mpr he, hp⟩

theorem keyCmp_trans_lt : (a b c : Key) → keyCmp a b = .lt → keyCmp b c = .lt →
    keyCmp a c = .lt
  | a, b, c, h1, h2 => by
    rcases keyCmp_lt_cases h1 with hr1 | ⟨he1, hp1⟩
    · rcases keyCmp_lt_cases h2 with hr2 | ⟨he2, hp2⟩
      · exact rank_lt_keyCmp (by omega)
      · exact rank_lt_keyCmp (by omega)
    · rcases keyCmp_lt_cases h2 with hr2 | ⟨he2, hp2⟩
      · exact rank_lt_keyCmp (by omega)
      · refine rank_eq_pay_keyCmp (by omega) ?_
        clear h1 h2
        cases a <;> cases b <;>
          first
          | (simp only [tagRank] at he1; omega)
          | (cases c <;>
              first
              | (simp only [tagRank] at he2; omega)
              | (simp only [payCmp] at hp1 hp2 ⊢
                 first
                 | exact cmpv_trans_lt hp1 hp2
                 | exact absurd hp1 (by decide)
                 | exact keyCmp_trans_lt _ _ _ hp1 hp2
                 | exact keyCmp_then_lex (fun u v => keyCmp_trans_lt _ u v)
                     (fun u v => keyCmp_trans_lt _ u v) hp1 hp2))
termination_by a _ _ _ _ => sizeOf a

theorem keyLe_iff {a b : Key} : keyLe a b = true ↔ keyCmp a b ≠ Ordering.gt := by
  simp [keyLe]

theorem keyCmp_gt_iff {a b : Key} : keyCmp a b = .gt ↔ keyCmp b a = .lt := by
  have h := keyCmp_swap a b
  constructor
  · intro hab
    rw [hab] at h
    exact h.symm
  · intro hba
    rw [← h] at hba
    rcases hab : keyCmp a b with _ | _ | _ <;> rw [hab] at hba <;>
      simp [Ordering.swap] at hba <;> rfl

theorem keyLe_trans {a b c : Key} (h1 : keyLe a b = true) (h2 : keyLe b c = true) :
    keyLe a c = true := by
  rw [keyLe_iff] at h1 h2 ⊢
  rcases hab : keyCmp a b with _ | _ | _
  · rcases hbc : keyCmp b c with _ | _ | _
    · intro hac
      exact absurd (keyCmp_trans_lt a b c hab hbc) (by simp [hac])
    · obtain rfl : b = c := (keyCmp_eq_iff _ _).mp hbc
      simp [hab]
    · exact absurd hbc h2
  · obtain rfl : a = b := (keyCmp_eq_iff _ _).mp hab
    exact h2
  · exact absurd hab h1

theorem keyLe_total (a b : Key) : keyLe a b = true ∨ keyLe b a = true := by
  rw [keyLe_iff, keyLe_iff]
  rcases hab : keyCmp a b with _ | _ | _
  · left; simp
  · left; simp
  · right
    have := keyCmp_gt_iff.mp hab
    simp [this]

theorem keyLe_antisymm {a b : Key} (h1 : keyLe a b = true) (h2 : keyLe b a = true) :
    a = b := by
  rw [keyLe_iff] at h1 h2
  rcases hab : keyCmp a b with _ | _ | _
  · exact absurd (keyCmp_gt_iff.mpr hab) h2
  · exact (keyCmp_eq_iff _ _).mp hab
  · exact absurd hab h1

/-!
## Data model of the final variant

A `Lang` mirrors one `Language` instance (var.py:37-58): `id` models the
object identity used by `is` comparisons in `_check_same_ops` /
`resolve_language`, and the flags record which optional
`LanguageTypes`/`LanguageOps` slots are bound (a slot is `None` in Python
iff its flag is `false`).  A Python expression tree always lives inside a
single `Language` (enforced by the constructors), so an expression value
is a pure tree `Expr` and the owning language is passed alongside
(`LExpr` at the operator-overload boundary).
-/

structure Lang where
  id : Nat
  hasBool : Bool
  hasName : Bool
  hasNull : Bool
  hasInt : Bool
  hasString : Bool
  hasNot : Bool
  hasAnd : Bool
  hasOr : Bool
  hasAdd : Bool
  hasSub : Bool
  hasMul : Bool
  hasDiv : Bool
deriving DecidableEq, Repr

/-- `Language.validate()` succeeds (var.py:43-58): the five mandatory
slots Bool, Name, Not, And, Or are bound. -/
def Lang.valid (L : Lang) : Bool :=
  L.hasBool && L.hasName && L.hasNot && L.hasAnd && L.hasOr

inductive Expr where
  | bool (b : Bool)
  | int (n : Int)
  | str (s : String)
  | name (s : String)
  | null
  | not (c : Expr)
  | and (l r : Expr)
  | or (l r : Expr)
  | add (l r : Expr)
  | sub (l r : Expr)
  | mul (l r : Expr)
  | div (l r : Expr)
deriving DecidableEq, Repr

/-- `VarExpr.key()` (var.py:212-213) together with the per-class
`TYPE`/`args` definitions. -/
def key : Expr → Key
  | .bool b => .kbool b
  | .int n => .kint n
  | .str s => .kstring s.data
  | .name s => .kname s.data
  | .null => .knull
  | .not c => .knot (key c)
  | .and l r => .kand (key l) (key r)
  | .or l r => .kor (key l) (key r)
  | .add l r => .kadd (key l) (key r)
  | .sub l r => .ksub (key l) (key r)
  | .mul l r => .kmul (key l) (key r)
  | .div l r => .kdiv (key l) (key r)

theorem key_inj : ∀ (a b : Expr), key a = key b → a = b := by
  intro a
  induction a with
  | bool x =>
    intro b h
    cases b <;> simp [key] at h
    rw [h]
  | int x =>
    intro b h
    cases b <;> simp [key] at h
    rw [h]
  | str x =>
    intro b h
    cases b <;> simp [key] at h
    exact congrArg Expr.str (String.ext h)
  | name x =>
    intro b h
    cases b <;> simp [key] at h
    exact congrArg Expr.name (String.ext h)
  | null =>
    intro b h
    cases b <;> simp [key] at h
    rfl
  | not c ih =>
    intro b h
    cases b <;> simp [key] at h
    rw [ih _ h]
  | and l r ihl ihr =>
    intro b h
    cases b <;> simp [key] at h
    rw [ihl _ h.1, ihr _ h.2]
  | or l r ihl ihr =>
    intro b h
    cases b <;> simp [key] at h
    rw [ihl _ h.1, ihr _ h.2]
  | add l r ihl ihr =>
    intro b h
    cases b <;> simp [key] at h
    rw [ihl _ h.1, ihr _ h.2]
  | sub l r ihl ihr =>
    intro b h
    cases b <;> simp [key] at h
    rw [ihl _ h.1, ihr _ h.2]
  | mul l r ihl ihr =>
    intro b h
    cases b <;> simp [key] at h
    rw [ihl _ h.1, ihr _ h.2]
  | div l r ihl ihr =>
    intro b h
    cases b <;> simp [key] at h
    rw [ihl _ h.1, ihr _ h.2]

/-- Ascending comparison of terms by structural key, as used by
`sorted(terms, key=lambda e: e.key())` in `rebuild_sorted` (var.py:287). -/
def termLe (a b : Expr) : Bool := keyLe (key a) (key b)

/-- The sort relation of Python's `sorted(key=...)` as a proposition;
`rebuild_sorted` uses the stable sort for this total preorder, embedded
as insertion sort. -/
def termR (a b : Expr) : Prop := termLe a b = true

instance : DecidableRel termR :=
  fun a b => inferInstanceAs (Decidable (termLe a b = true))

/-- `bool_type.isTrue(x)` (var.py:344-346). -/
def isTrueB (e : Expr) : Bool := e = .bool true

/-- `bool_type.isFalse(x)` (var.py:348-350). -/
def isFalseB (e : Expr) : Bool := e = .bool false

/-- `VarBinaryOp.is_negation_pair` (var.py:264-268). -/
def isNegPair (a b : Expr) : Bool :=
  key a = Key.knot (key b) || key b = Key.knot (key a)

/-- Is the node a `VarNot` instance? -/
def isNotNode : Expr → Bool
  | .not _ => true
  | _ => false

/-- First-occurrence deduplication by key: the `seen` set of the `add`
closures in `_flatten_terms` (var.py:559-581, 692-714). -/
def dedupKeys : List Key → List Expr → List Expr
  | _, [] => []
  | seen, e :: rest =>
    if key e ∈ seen then dedupKeys seen rest
    else e :: dedupKeys (key e :: seen) rest

/-- The `walk` closure of `VarAnd._flatten_terms`: collapse nested ANDs. -/
def walkAnd : Expr → List Expr
  | .and l r => walkAnd l ++ walkAnd r
  | e => [e]

/-- The `walk` closure of `VarOr._flatten_terms`: collapse nested ORs. -/
def walkOr : Expr → List Expr
  | .or l r => walkOr l ++ walkOr r
  | e => [e]

/-- `VarAnd._flatten_terms(a, b)` (var.py:559-581): walk both sides,
drop `True` terms (when the dialect has a Bool type), dedupe by key. -/
def flattenAndTerms (L : Lang) (a b : Expr) : List Expr :=
  dedupKeys []
    ((walkAnd a ++ walkAnd b).filter (fun e => !(L.hasBool && isTrueB e)))

/-- `VarOr._flatten_terms(a, b)` (var.py:692-714): dual, drops `False`. -/
def flattenOrTerms (L : Lang) (a b : Expr) : List Expr :=
  dedupKeys []
    ((walkOr a ++ walkOr b).filter (fun e => !(L.hasBool && isFalseB e)))

/-- `VarAnd._detect_contradiction` (var.py:583-594). -/
def detectContradiction (L : Lang) (terms : List Expr) : Option Expr :=
  if L.hasBool then
    let keys := terms.map key
    if terms.any (fun t =>
        match t with
        | .not c => decide (key c ∈ keys)
        | _ => decide (Key.knot (key t) ∈ keys)) then
      some (.bool false)
    else none
  else none

/-- `VarOr._detect_tautology` (var.py:716-727). -/
def detectTautology (L : Lang) (terms : List Expr) : Option Expr :=
  if L.hasBool then
    let keys := terms.map key
    if terms.any (fun t =>
        match t with
        | .not c => decide (key c ∈ keys)
        | _ => decide (Key.knot (key t) ∈ keys)) then
      some (.bool true)
    else none
  else none

/-- `VarAnd._absorption_with_or` (var.py:596-605): drop OR terms one of
whose children occurs among the terms. -/
def absorptionWithOr (terms : List Expr) : List Expr :=
  if terms.isEmpty then terms
  else
    let base := terms.map key
    terms.filter (fun t =>
      match t with
      | .or l r => !(decide (key l ∈ base) || decide (key r ∈ base))
      | _ => true)

/-- `VarOr._absorption_with_and` (var.py:729-738). -/
def absorptionWithAnd (terms : List Expr) : List Expr :=
  if terms.isEmpty then terms
  else
    let base := terms.map key
    terms.filter (fun t =>
      match t with
      | .and l r => !(decide (key l ∈ base) || decide (key r ∈ base))
      | _ => true)

/-- One term of the loop body of `VarAnd._negated_absorption_with_or`
(var.py:617-639); returns the replacement and whether it changed. -/
def negAbsorbOrStep (basePos baseNeg : List Key) (t : Expr) : Expr × Bool :=
  match t with
  | .or l r =>
    if (match l with | .not lc => decide (key lc ∈ basePos) | _ => false) then (r, true)
    else if (match r with | .not rc => decide (key rc ∈ basePos) | _ => false) then (l, true)
    else if key l ∈ baseNeg then (r, true)
    else if key r ∈ baseNeg then (l, true)
    else (t, false)
  | _ => (t, false)

/-- Loop body of `VarOr._negated_absorption_with_and` (var.py:750-772). -/
def negAbsorbAndStep (basePos baseNeg : List Key) (t : Expr) : Expr × Bool :=
  match t with
  | .and l r =>
    if (match l with | .not lc => decide (key lc ∈ basePos) | _ => false) then (r, true)
    else if (match r with | .not rc => decide (key rc ∈ basePos) | _ => false) then (l, true)
    else if key l ∈ baseNeg then (r, true)
    else if key r ∈ baseNeg then (l, true)
    else (t, false)
  | _ => (t, false)

/-- `base_pos = set of keys of the non-Not terms` (var.py:611, 744). -/
def basePosOf (terms : List Expr) : List Key :=
  (terms.filter (fun t => !(isNotNode t))).map key

/-- `base_neg = set of child keys of the Not terms` (var.py:612, 745). -/
def baseNegOf (terms : List Expr) : List Key :=
  terms.filterMap (fun t =>
    match t with | .not c => some (key c) | _ => none)

/-- `VarAnd._negated_absorption_with_or` (var.py:607-641). -/
def negAbsorptionWithOr (terms : List Expr) : List Expr :=
  if terms.length ≤ 1 then terms
  else
    let pairs := terms.map (negAbsorbOrStep (basePosOf terms) (baseNegOf terms))
    if pairs.any (fun p => p.2) then pairs.map (fun p => p.1) else terms

/-- `VarOr._negated_absorption_with_and` (var.py:740-774). -/
def negAbsorptionWithAnd (terms : List Expr) : List Expr :=
  if terms.length ≤ 1 then terms
  else
    let pairs := terms.map (negAbsorbAndStep (basePosOf terms) (baseNegOf terms))
    if pairs.any (fun p => p.2) then pairs.map (fun p => p.1) else terms

/-- `VarBinaryOp.rebuild_sorted` (var.py:270-291): sort terms by key and
fold left-associatively; empty list gives `emptyVal`, single term is
returned unwrapped.  (The mixed-language check of the source is vacuous
here: a modelled tree lives in one language by construction.) -/
def rebuildSorted (terms : List Expr) (emptyVal : Expr)
    (op : Expr → Expr → Expr) : Expr :=
  match terms with
  | [] => emptyVal
  | [t] => t
  | _ =>
    match List.insertionSort termR terms with
    | [] => emptyVal
    | t :: ts => ts.foldl op t

/-- `VarAnd.simplify` (var.py:521-557).  It makes no recursive
`simplify` call, so it is a pure function of the node.  `left`/`right`
are the raw children; the original node `.and left right` is the
`self` passed as rebuild default when the dialect has no Bool type. -/
def andSimp (L : Lang) (left right : Expr) : Expr :=
  if L.hasBool && (isFalseB left || isFalseB right) then .bool false
  else if L.hasBool && isTrueB left then right
  else if L.hasBool && isTrueB right then left
  else if key left = key right then left
  else if isNegPair left right && L.hasBool then .bool false
  else
    let terms := flattenAndTerms L left right
    match detectContradiction L terms with
    | some e => e
    | none =>
      let t1 := absorptionWithOr terms
      let t2 := negAbsorptionWithOr t1
      if L.hasBool then rebuildSorted t2 (.bool true) Expr.and
      else rebuildSorted t2 (.and left right) Expr.and

/-- `VarOr.simplify` (var.py:654-690), the dual of `andSimp`. -/
def orSimp (L : Lang) (left right : Expr) : Expr :=
  if L.hasBool && (isTrueB left || isTrueB right) then .bool true
  else if L.hasBool && isFalseB left then right
  else if L.hasBool && isFalseB right then left
  else if key left = key right then left
  else if isNegPair left right && L.hasBool then .bool true
  else
    let terms := flattenOrTerms L left right
    match detectTautology L terms with
    | some e => e
    | none =>
      let t1 := absorptionWithAnd terms
      let t2 := negAbsorptionWithAnd t1
      if L.hasBool then rebuildSorted t2 (.bool false) Expr.or
      else rebuildSorted t2 (.or left right) Expr.or

/-!
## Arithmetic helpers (`VarAdd`/`VarSub`/`VarMul`/`VarDiv`)

Python tests `isinstance(t, VarConst) and isinstance(t.value, int)`.
A `VarBool` stores a Python `bool`, which *is* an `int` (`True == 1`),
and a `VarInt` stores an `int`; a `VarString` stores a `str`.  `CTy`
records which concrete constant class (`type(t)`) produced the value.
-/

inductive CTy where
  | ctBool
  | ctInt
deriving DecidableEq, Repr

/-- The integer reading of an int-valued constant leaf, with its class. -/
def constIntOf : Expr → Option (CTy × Int)
  | .bool b => some (.ctBool, if b then 1 else 0)
  | .int n => some (.ctInt, n)
  | _ => none

/-- `type(t)(v)`: rebuild a constant of class `ty` from an int (`VarBool`
applies `bool(val)`, `VarInt` applies `int(val)`). -/
def mkConst : CTy → Int → Expr
  | .ctBool, v => .bool (v ≠ 0)
  | .ctInt, v => .int v

/-- `walk` of `VarAdd._flatten_sum` (var.py:812-824): no dedup, no drops. -/
def walkAdd : Expr → List Expr
  | .add l r => walkAdd l ++ walkAdd r
  | e => [e]

/-- `walk` of `VarMul._flatten_product` (var.py:1056-1068). -/
def walkMul : Expr → List Expr
  | .mul l r => walkMul l ++ walkMul r
  | e => [e]

def flattenSum (a b : Expr) : List Expr := walkAdd a ++ walkAdd b

def flattenProd (a b : Expr) : List Expr := walkMul a ++ walkMul b

/-- `VarAdd._extract_coeff_base` (var.py:888-903). -/
def extractCoeffBase : Expr → Option ((CTy × Int) × Expr)
  | .mul l r =>
    match constIntOf l with
    | some c => some (c, r)
    | none =>
      match constIntOf r with
      | some c => some (c, l)
      | none => none
  | _ => none

/-- State of `VarAdd._collect_linear_terms` (var.py:826-886): the
constant accumulator, the insertion-ordered dict
`base.key() -> (coeff, coeff_type, base_expr)`, and the passthrough
`others` list. -/
structure LinState where
  ct : Option CTy
  cs : Int
  lin : List (Key × Int × Option CTy × Expr)
  others : List Expr
deriving Repr

def findAssoc (k : Key) : List (Key × Int × Option CTy × Expr) →
    Option (Int × Option CTy × Expr)
  | [] => none
  | (k0, v) :: rest => if k0 = k then some v else findAssoc k rest

def updAssoc (k : Key) (v : Int × Option CTy × Expr) :
    List (Key × Int × Option CTy × Expr) → List (Key × Int × Option CTy × Expr)
  | [] => []
  | (k0, v0) :: rest =>
    if k0 = k then (k0, v) :: rest else (k0, v0) :: updAssoc k v rest

/-- One loop iteration of `_collect_linear_terms` (var.py:842-884). -/
def collectLinStep (st : LinState) (t : Expr) : LinState :=
  match constIntOf t with
  | some (ty, v) =>
    match st.ct with
    | none => ⟨some ty, st.cs + v, st.lin, st.others⟩
    | some ty0 =>
      if ty0 = ty then ⟨st.ct, st.cs + v, st.lin, st.others⟩
      else ⟨st.ct, st.cs, st.lin, st.others ++ [t]⟩
  | none =>
    match extractCoeffBase t, t with
    | some ((cty, cv), base), .mul _ _ =>
      let k := key base
      match findAssoc k st.lin with
      | none => ⟨st.ct, st.cs, st.lin ++ [(k, cv, some cty, base)], st.others⟩
      | some (pc, pty, pbase) =>
        if pty = some cty then
          ⟨st.ct, st.cs, updAssoc k (pc + cv, pty, pbase) st.lin, st.others⟩
        else if pty = none then
          ⟨st.ct, st.cs, updAssoc k (pc + cv, some cty, pbase) st.lin, st.others⟩
        else
          ⟨st.ct, st.cs, st.lin, st.others ++ [t]⟩
    | _, _ =>
      let k := key t
      match findAssoc k st.lin with
      | none => ⟨st.ct, st.cs, st.lin ++ [(k, 1, none, t)], st.others⟩
      | some (pc, pty, pbase) =>
        ⟨st.ct, st.cs, updAssoc k (pc + 1, pty, pbase) st.lin, st.others⟩

def collectLinear (terms : List Expr) : LinState :=
  terms.foldl collectLinStep ⟨none, 0, [], []⟩

/-- `acc = base; for _ in range(k): acc = add_cls(acc, base)`. -/
def repAdd (base : Expr) : Nat → Expr
  | 0 => base
  | k + 1 => .add (repAdd base k) base

/-- The per-entry loop body of `VarAdd._rebuild_terms` over the sorted
linear terms (var.py:922-942).  `s` is the `.simplify()` of the source. -/
def buildLinTerms (L : Lang) (s : Expr → Option Expr) :
    List (Key × Int × Option CTy × Expr) → Option (List Expr)
  | [] => some []
  | (_, coeff, cty, base) :: rest =>
    if coeff = 0 then buildLinTerms L s rest
    else
      let fallbackRep : Option Expr :=
        if coeff = 1 then some base else s (repAdd base (coeff - 1).toNat)
      let head : Option Expr :=
        match cty with
        | some ty => if L.hasMul then s (.mul (mkConst ty coeff) base) else fallbackRep
        | none =>
          if L.hasInt && L.hasMul then s (.mul (.int coeff) base) else fallbackRep
      match head, buildLinTerms L s rest with
      | some h, some tl => some (h :: tl)
      | _, _ => none

/-- `VarAdd._rebuild_terms` (var.py:905-946): nonzero constant first,
then the linear terms sorted by base key, then `others` unchanged. -/
def rebuildTermsWith (L : Lang) (s : Expr → Option Expr) (st : LinState) :
    Option (List Expr) :=
  let constPart : List Expr :=
    match st.ct with
    | some ty => if st.cs ≠ 0 then [mkConst ty st.cs] else []
    | none => []
  match buildLinTerms L s (List.insertionSort (fun p q => keyLe p.1 q.1 = true) st.lin) with
  | some linPart => some (constPart ++ linPart ++ st.others)
  | none => none

/-- `VarMul._collect_constant_factor` (var.py:1070-1091). -/
def collectConstFactor (factors : List Expr) : Option CTy × Int × List Expr :=
  factors.foldl
    (fun (acc : Option CTy × Int × List Expr) f =>
      let (ct, cp, nc) := acc
      match constIntOf f with
      | some (ty, v) =>
        match ct with
        | none => (some ty, cp * v, nc)
        | some ty0 => if ty0 = ty then (ct, cp * v, nc) else (ct, cp, nc ++ [f])
      | none => (ct, cp, nc ++ [f]))
    (none, 1, [])

/-- `VarSub._negate_expr` (var.py:992-1012).  Outer `Option` is fuel
exhaustion of the embedded `.simplify()` calls, inner `Option` is the
source's `Optional` result. -/
def negateExprWith (L : Lang) (s : Expr → Option Expr) (e : Expr) :
    Option (Option Expr) :=
  let fallback : Option (Option Expr) :=
    if L.hasInt && L.hasMul then (s (.mul (.int (-1)) e)).map some
    else some none
  match constIntOf e with
  | some (ty, v) => some (some (mkConst ty (-v)))
  | none =>
    match e with
    | .mul a b =>
      if L.hasMul then
        match constIntOf a with
        | some (ty, v) => (s (.mul (mkConst ty (-v)) b)).map some
        | none =>
          match constIntOf b with
          | some (ty, v) => (s (.mul a (mkConst ty (-v)))).map some
          | none => fallback
      else fallback
    | _ => fallback

/-- `VarDiv._reduce_constant_factor` (var.py:1133-1158); `divmod` is
Python floor division/modulus (`Int.fdiv` / `Int.fmod`). -/
def reduceConstFactorWith (s : Expr → Option Expr) (left right : Expr) :
    Option (Option Expr) :=
  match constIntOf right with
  | none => some none
  | some (tyr, rv) =>
    if rv = 0 then some none
    else
      match left with
      | .mul a b =>
        let tryPair : Expr → Expr → Option (Option (Option Expr)) := fun c o =>
          match constIntOf c with
          | some (tyc, cv) =>
            if tyc = tyr && Int.fmod cv rv = 0 then
              some ((s (.mul (mkConst tyc (Int.fdiv cv rv)) o)).map some)
            else none
          | none => none
        match tryPair a b with
        | some res => res
        | none =>
          match tryPair b a with
          | some res => res
          | none => some none
      | _ => some none

/-!
## `simplify`

Fuel-indexed because the source recursion does not structurally
decrease: `VarNot.simplify` re-simplifies the value of a De Morgan
dispatch, and `VarAdd._rebuild_terms` without a registered `Mul` class
rebuilds repeated additions whose re-simplification does not terminate
(e.g. `x + x` in such a dialect hits Python's recursion limit).
`none` means the fuel ran out; on every value the source actually
computes, some finite fuel returns `some`.  Leaf, `VarAnd.simplify` and
`VarOr.simplify` cases make no recursive `simplify` call and consume no
fuel.  The inner `|`/`&` dispatches of the De Morgan rewrites assume the
dialect's And/Or slots are bound, as `Language.validate()ensures`; their
operands are freshly built `Not` nodes, never the Null singleton.
-/

def simplify (L : Lang) : Nat → Expr → Option Expr
  | _, .bool b => some (.bool b)
  | _, .int n => some (.int n)
  | _, .str s => some (.str s)
  | _, .name s => some (.name s)
  | _, .null => some .null
  | _, .and l r => some (andSimp L l r)
  | _, .or l r => some (orSimp L l r)
  | 0, .not _ => none
  | n + 1, .not c =>
    -- VarNot.simplify (var.py:485-508)
    if L.hasBool && isTrueB c then some (.bool false)
    else if L.hasBool && isFalseB c then some (.bool true)
    else
      match c with
      | .not c2 => some c2
      | .and l r =>
        -- (Not(c.left) | Not(c.right)).simplify()
        match simplify L n (.not l), simplify L n (.not r) with
        | some a, some b => simplify L n (orSimp L a b)
        | _, _ => none
      | .or l r =>
        -- (Not(c.left) & Not(c.right)).simplify()
        match simplify L n (.not l), simplify L n (.not r) with
        | some a, some b => simplify L n (andSimp L a b)
        | _, _ => none
      | _ => some (.not c)
  | 0, .add _ _ => none
  | n + 1, .add l r =>
    -- VarAdd.simplify (var.py:791-810)
    match simplify L n l, simplify L n r with
    | some left, some right =>
      let st := collectLinear (flattenSum left right)
      match rebuildTermsWith L (simplify L n) st with
      | none => none
      | some [] => some (.add l r)
      | some [t] => some t
      | some (t :: ts) => some (ts.foldl Expr.add t)
    | _, _ => none
  | 0, .sub _ _ => none
  | n + 1, .sub l r =>
    -- VarSub.simplify (var.py:959-990)
    match simplify L n l, simplify L n r with
    | some left, some right =>
      let fold1 : Option Expr :=
        match constIntOf left, constIntOf right with
        | some (tyl, lv), some (tyr, rv) =>
          if tyl = tyr then some (mkConst tyl (lv - rv)) else none
        | _, _ => none
      match fold1 with
      | some e => some e
      | none =>
        if (match constIntOf right with | some (_, rv) => rv == 0 | none => false) then
          some left
        else if key left = key right then
          match constIntOf left with
          | some (tyl, _) => some (mkConst tyl 0)
          | none => if L.hasInt then some (.int 0) else some (.sub l r)
        else
          match negateExprWith L (simplify L n) right with
          | none => none
          | some (some neg) => simplify L n (.add left neg)
          | some none => some (.sub l r)
    | _, _ => none
  | 0, .mul _ _ => none
  | n + 1, .mul l r =>
    -- VarMul.simplify (var.py:1025-1054)
    match simplify L n l, simplify L n r with
    | some left, some right =>
      match collectConstFactor (flattenProd left right) with
      | (some ty, cp, nonConst) =>
        if cp = 0 then some (mkConst ty 0)
        else
          match (if cp = 1 then [] else [mkConst ty cp]) ++ nonConst with
          | [] => some (mkConst ty cp)
          | [f] => some f
          | f :: fs => some (fs.foldl Expr.mul f)
      | (none, _, nonConst) =>
        match nonConst with
        | [] => some (.mul l r)
        | [f] => some f
        | f :: fs => some (fs.foldl Expr.mul f)
    | _, _ => none
  | 0, .div _ _ => none
  | n + 1, .div l r =>
    -- VarDiv.simplify (var.py:1104-1131)
    match simplify L n l, simplify L n r with
    | some left, some right =>
      let fold1 : Option Expr :=
        match constIntOf left, constIntOf right with
        | some (tyl, lv), some (tyr, rv) =>
          if tyl = tyr && rv ≠ 0 then some (mkConst tyl (Int.fdiv lv rv)) else none
        | _, _ => none
      match fold1 with
      | some e => some e
      | none =>
        if (match constIntOf right with | some (_, rv) => rv == 1 | none => false) then
          some left
        else
          match constIntOf left with
          | some (tyl, lv) =>
            if lv = 0 then some (mkConst tyl 0)
            else
              match reduceConstFactorWith (simplify L n) left right with
              | none => none
              | some (some e) => some e
              | some none => some (.div l r)
          | none =>
            match reduceConstFactorWith (simplify L n) left right with
            | none => none
            | some (some e) => some e
            | some none => some (.div l r)
    | _, _ => none

/-!
## Operator-overload dispatch (`VarExpr._dispatch_binop`, `__invert__`)

An `LExpr` is an expression together with the `Language` instance all of
its nodes belong to.  `Except String` carries the `TypeError`s of the
source; the `Option` inside `.ok` is the fuel layer of `simplify`.
-/

structure LExpr where
  lang : Lang
  e : Expr

inductive BOp where
  | and
  | or
  | add
  | sub
  | mul
  | div
deriving DecidableEq, Repr

/-- Is the operator's class slot bound in the dialect's `LanguageOps`? -/
def opReg (L : Lang) : BOp → Bool
  | .and => L.hasAnd
  | .or => L.hasOr
  | .add => L.hasAdd
  | .sub => L.hasSub
  | .mul => L.hasMul
  | .div => L.hasDiv

/-- `op_cls(lhs, rhs)`: the node the dispatcher builds. -/
def mkOp : BOp → Expr → Expr → Expr
  | .and => Expr.and
  | .or => Expr.or
  | .add => Expr.add
  | .sub => Expr.sub
  | .mul => Expr.mul
  | .div => Expr.div

/-- `isinstance(x, VarNull)`. -/
def isNullE (e : Expr) : Bool := e = Expr.null

/-- `VarExpr._dispatch_binop` (var.py:96-125): same-language check,
central Null short-circuit, unsupported-operator check, then
`op_cls(lhs.simplify(), rhs.simplify()).simplify()`. -/
def dispatchBinop (n : Nat) (op : BOp) (lhs rhs : LExpr) :
    Except String (Option Expr) :=
  if lhs.lang.id ≠ rhs.lang.id then
    .error "Cannot combine expressions with different Language instances"
  else
    let L := lhs.lang
    if L.hasNull && isNullE lhs.e && isNullE rhs.e then .ok (some .null)
    else if L.hasNull && isNullE lhs.e then .ok (simplify L n rhs.e)
    else if L.hasNull && isNullE rhs.e then .ok (simplify L n lhs.e)
    else if opReg L op = false then
      .error "This language does not define this operator"
    else
      .ok (match simplify L n lhs.e, simplify L n rhs.e with
        | some a, some b => simplify L n (mkOp op a b)
        | _, _ => none)

/-- `VarExpr.__invert__` (var.py:148-157). -/
def invertOp (n : Nat) (x : LExpr) : Except String (Option Expr) :=
  if x.lang.hasNull && isNullE x.e then .ok (some x.e)
  else if x.lang.hasNot = false then
    .error "This language does not define logical NOT"
  else
    .ok (match simplify x.lang n x.e with
      | some d => simplify x.lang n (.not d)
      | none => none)

/-- `VarUnaryOp.__init__` (var.py:235-239): building a `Not` node whose
child belongs to a different `Language` than the operator class raises. -/
def mkUnaryOp (opLang : Lang) (child : LExpr) : Except String LExpr :=
  if opLang.id ≠ child.lang.id then
    .error "Mismatched Language in unary operator"
  else
    .ok ⟨opLang, .not child.e⟩

/-- `VarBinaryOp.__init__` (var.py:249-255). -/
def mkBinaryOp (opLang : Lang) (op : BOp) (left right : LExpr) :
    Except String LExpr :=
  if opLang.id ≠ left.lang.id || opLang.id ≠ right.lang.id then
    .error "Mismatched Language in binary operator"
  else
    .ok ⟨opLang, mkOp op left.e right.e⟩

/-- `VarExpr.__eq__` (var.py:226-227): key comparison only.  The
`isinstance(other, VarExpr)` guard always holds between two modelled
expressions; the languages of the two operands are not consulted. -/
def veq (a b : LExpr) : Bool := key a.e = key b.e

/-- `simplify(a & b)` as the spec writes it: the eager `&` overload
followed by one more `simplify` call (fuel-layered value). -/
def combineThenSimp (n : Nat) (op : BOp) (lhs rhs : LExpr) :
    Except String (Option Expr) :=
  match dispatchBinop n op lhs rhs with
  | .error m => .error m
  | .ok none => .ok none
  | .ok (some e) => .ok (simplify lhs.lang n e)

/-!
## Permutation machinery

`key` is injective, so first-occurrence dedup by key keeps exactly one
representative per member, and Python's stable sort of two permuted term
lists returns the same list.
-/

theorem termLe_trans : ∀ (a b c : Expr), termLe a b = true → termLe b c = true →
    termLe a c = true := fun _ _ _ h1 h2 => keyLe_trans h1 h2

theorem termLe_total : ∀ (a b : Expr), (termLe a b || termLe b a) = true := by
  intro a b
  rcases keyLe_total (key a) (key b) with h | h <;> simp [termLe, h]

instance : IsTrans Expr termR := ⟨termLe_trans⟩

instance : IsTotal Expr termR :=
  ⟨fun a b => keyLe_total (key a) (key b)⟩

instance : IsAntisymm Expr termR :=
  ⟨fun a b h1 h2 => key_inj a b (keyLe_antisymm h1 h2)⟩

theorem mem_dedupKeys {x : Expr} : ∀ {seen : List Key} {l : List Expr},
    x ∈ dedupKeys seen l ↔ x ∈ l ∧ key x ∉ seen := by
  intro seen l
  induction l generalizing seen with
  | nil => simp [dedupKeys]
  | cons e rest ih =>
    by_cases h : key e ∈ seen
    · rw [dedupKeys, if_pos h]
      rw [ih]
      constructor
      · exact fun ⟨h1, h2⟩ => ⟨List.mem_cons_of_mem _ h1, h2⟩
      · rintro ⟨h1, h2⟩
        rcases List.mem_cons.mp h1 with rfl | h1
        · exact absurd h h2
        · exact ⟨h1, h2⟩
    · rw [dedupKeys, if_neg h]
      constructor
      · intro hx
        rcases List.mem_cons.mp hx with rfl | hx
        · exact ⟨List.mem_cons_self _ _, h⟩
        · obtain ⟨h1, h2⟩ := ih.mp hx
          exact ⟨List.mem_cons_of_mem _ h1, fun hk => h2 (List.mem_cons_of_mem _ hk)⟩
      · rintro ⟨h1, h2⟩
        rcases List.mem_cons.mp h1 with rfl | h1
        · exact List.mem_cons_self _ _
        · by_cases hk : key x = key e
          · obtain rfl := key_inj x e hk
            exact List.mem_cons_self _ _
          · exact List.mem_cons_of_mem _ (ih.mpr ⟨h1, by simp [hk, h2]⟩)

theorem dedupKeys_nodupkeys : ∀ (seen : List Key) (l : List Expr),
    ((dedupKeys seen l).map key).Nodup ∧ ∀ x ∈ dedupKeys seen l, key x ∉ seen := by
  intro seen l
  induction l generalizing seen with
  | nil => simp [dedupKeys]
  | cons e rest ih =>
    by_cases h : key e ∈ seen
    · rw [dedupKeys, if_pos h]
      exact ih seen
    · rw [dedupKeys, if_neg h]
      obtain ⟨ih1, ih2⟩ := ih (key e :: seen)
      refine ⟨?_, ?_⟩
      · rw [List.map_cons, List.nodup_cons]
        refine ⟨?_, ih1⟩
        intro hmem
        obtain ⟨y, hy, hky⟩ := List.mem_map.mp hmem
        exact (ih2 y hy) (by simp [hky])
      · intro x hx
        rcases List.mem_cons.mp hx with rfl | hx
        · exact h
        · intro hs
          exact (ih2 x hx) (List.mem_cons_of_mem _ hs)

theorem dedupKeys_nodup (seen : List Key) (l : List Expr) :
    (dedupKeys seen l).Nodup :=
  ((dedupKeys_nodupkeys seen l).1).of_map key

/-- Dedup of permuted lists produces permuted (in fact key-equal-member)
lists. -/
theorem dedupKeys_perm {l1 l2 : List Expr} (h : l1.Perm l2) :
    (dedupKeys [] l1).Perm (dedupKeys [] l2) := by
  rw [List.perm_ext_iff_of_nodup (dedupKeys_nodup [] l1) (dedupKeys_nodup [] l2)]
  intro x
  rw [mem_dedupKeys, mem_dedupKeys]
  simp [h.mem_iff]

/-- Dedup is the identity on lists whose keys are already distinct and
disjoint from `seen`. -/
theorem dedupKeys_eq_self : ∀ {seen : List Key} {l : List Expr},
    (l.map key).Nodup → (∀ x ∈ l, key x ∉ seen) → dedupKeys seen l = l := by
  intro seen l
  induction l generalizing seen with
  | nil => intro _ _; rfl
  | cons e rest ih =>
    intro hn hd
    rw [List.map_cons, List.nodup_cons] at hn
    rw [dedupKeys, if_neg (hd e (List.mem_cons_self _ _))]
    congr 1
    refine ih hn.2 ?_
    intro x hx hk
    rcases List.mem_cons.mp hk with he | hk2
    · exact hn.1 (he ▸ List.mem_map_of_mem key hx)
    · exact hd x (List.mem_cons_of_mem _ hx) hk2

/-- `rebuild_sorted` does not look at `empty_val` when the term list is
nonempty. -/
theorem rebuildSorted_emptyVal {terms : List Expr} (h : terms ≠ [])
    (v w : Expr) (op : Expr → Expr → Expr) :
    rebuildSorted terms v op = rebuildSorted terms w op := by
  match terms with
  | [] => exact absurd rfl h
  | [t] => rfl
  | t1 :: t2 :: ts =>
    have hp := List.perm_insertionSort termR (t1 :: t2 :: ts)
    rcases hm : List.insertionSort termR (t1 :: t2 :: ts) with _ | ⟨s, ss⟩
    · rw [hm] at hp
      exact absurd hp.symm (by simp)
    · simp only [rebuildSorted, hm]

/-- Sorting permuted term lists gives the same list: sort output is
sorted, permutation-equal, and `termLe` is antisymmetric because keys
are injective. -/
theorem sort_perm_eq {l1 l2 : List Expr} (h : l1.Perm l2) :
    List.insertionSort termR l1 = List.insertionSort termR l2 :=
  List.eq_of_perm_of_sorted
    (((List.perm_insertionSort termR l1).trans h).trans
      (List.perm_insertionSort termR l2).symm)
    (List.sorted_insertionSort termR l1) (List.sorted_insertionSort termR l2)

theorem rebuildSorted_perm_congr {l1 l2 : List Expr} (h : l1.Perm l2)
    (v : Expr) (op : Expr → Expr → Expr) :
    rebuildSorted l1 v op = rebuildSorted l2 v op := by
  match l1, l2, h.length_eq with
  | [], [], _ => rfl
  | [t], [u], _ =>
    obtain rfl : t = u := by simpa using h.mem_iff (a := t) |>.mp (by simp)
    rfl
  | t1 :: t2 :: ts, u1 :: u2 :: us, hlen =>
    simp only [rebuildSorted, sort_perm_eq h]

theorem any_perm_congr {α : Type _} {l1 l2 : List α} (h : l1.Perm l2) (p : α → Bool) :
    l1.any p = l2.any p := by
  rcases h1 : l1.any p with _ | _ <;> rcases h2 : l2.any p with _ | _ <;> try rfl
  · obtain ⟨x, hx, hpx⟩ := List.any_eq_true.mp h2
    have h3 := List.any_eq_true.mpr ⟨x, h.mem_iff.mpr hx, hpx⟩
    rw [h1] at h3
    exact h3
  · obtain ⟨x, hx, hpx⟩ := List.any_eq_true.mp h1
    have h3 := List.any_eq_true.mpr ⟨x, h.mem_iff.mp hx, hpx⟩
    rw [h2] at h3
    exact h3.symm

theorem any_congr_mem {α : Type _} {l : List α} {p q : α → Bool}
    (h : ∀ x ∈ l, p x = q x) : l.any p = l.any q := by
  induction l with
  | nil => rfl
  | cons a t ih =>
    simp only [List.any_cons, h a (List.mem_cons_self _ _),
      ih (fun x hx => h x (List.mem_cons_of_mem _ hx))]

theorem flattenAndTerms_comm (L : Lang) (a b : Expr) :
    (flattenAndTerms L a b).Perm (flattenAndTerms L b a) :=
  dedupKeys_perm (List.perm_append_comm.filter _)

theorem flattenOrTerms_comm (L : Lang) (a b : Expr) :
    (flattenOrTerms L a b).Perm (flattenOrTerms L b a) :=
  dedupKeys_perm (List.perm_append_comm.filter _)

theorem detect_any_congr {t1 t2 : List Expr} (h : t1.Perm t2) :
    (t1.any (fun t =>
      match t with
      | .not c => decide (key c ∈ t1.map key)
      | _ => decide (Key.knot (key t) ∈ t1.map key)))
    = (t2.any (fun t =>
      match t with
      | .not c => decide (key c ∈ t2.map key)
      | _ => decide (Key.knot (key t) ∈ t2.map key))) := by
  have hk : (t1.map key).Perm (t2.map key) := h.map key
  have hstep := any_congr_mem (l := t1)
    (p := fun t =>
      match t with
      | Expr.not c => decide (key c ∈ t1.map key)
      | _ => decide (Key.knot (key t) ∈ t1.map key))
    (q := fun t =>
      match t with
      | Expr.not c => decide (key c ∈ t2.map key)
      | _ => decide (Key.knot (key t) ∈ t2.map key))
    (by
      intro x _
      cases x <;> simp only [decide_eq_decide] <;> exact hk.mem_iff)
  rw [hstep]
  exact any_perm_congr h _

theorem detectContradiction_perm (L : Lang) {t1 t2 : List Expr} (h : t1.Perm t2) :
    detectContradiction L t1 = detectContradiction L t2 := by
  simp only [detectContradiction]
  rw [detect_any_congr h]

theorem detectTautology_perm (L : Lang) {t1 t2 : List Expr} (h : t1.Perm t2) :
    detectTautology L t1 = detectTautology L t2 := by
  simp only [detectTautology]
  rw [detect_any_congr h]

theorem absorptionWithOr_perm {t1 t2 : List Expr} (h : t1.Perm t2) :
    (absorptionWithOr t1).Perm (absorptionWithOr t2) := by
  simp only [absorptionWithOr]
  have hlen := h.length_eq
  by_cases he : t1.isEmpty
  · obtain rfl : t1 = [] := List.isEmpty_iff.mp he
    obtain rfl : t2 = [] := by
      cases t2 with
      | nil => rfl
      | cons a t => simp at hlen
    simp
  · have he2 : ¬t2.isEmpty = true := by
      intro hc
      obtain rfl : t2 = [] := List.isEmpty_iff.mp hc
      refine he ?_
      obtain rfl : t1 = [] := by
        cases t1 with
        | nil => rfl
        | cons a t => simp at hlen
      rfl
    rw [if_neg he, if_neg he2]
    have hk : (t1.map key).Perm (t2.map key) := h.map key
    have hstep := List.filter_congr (l := t1)
      (p := fun t => match t with
        | Expr.or l r => !(decide (key l ∈ t1.map key) || decide (key r ∈ t1.map key))
        | _ => true)
      (q := fun t => match t with
        | Expr.or l r => !(decide (key l ∈ t2.map key) || decide (key r ∈ t2.map key))
        | _ => true)
      (by
        intro x _
        cases x <;> simp only [hk.mem_iff])
    rw [hstep]
    exact h.filter _

theorem absorptionWithAnd_perm {t1 t2 : List Expr} (h : t1.Perm t2) :
    (absorptionWithAnd t1).Perm (absorptionWithAnd t2) := by
  simp only [absorptionWithAnd]
  have hlen := h.length_eq
  by_cases he : t1.isEmpty
  · obtain rfl : t1 = [] := List.isEmpty_iff.mp he
    obtain rfl : t2 = [] := by
      cases t2 with
      | nil => rfl
      | cons a t => simp at hlen
    simp
  · have he2 : ¬t2.isEmpty = true := by
      intro hc
      obtain rfl : t2 = [] := List.isEmpty_iff.mp hc
      refine he ?_
      obtain rfl : t1 = [] := by
        cases t1 with
        | nil => rfl
        | cons a t => simp at hlen
      rfl
    rw [if_neg he, if_neg he2]
    have hk : (t1.map key).Perm (t2.map key) := h.map key
    have hstep := List.filter_congr (l := t1)
      (p := fun t => match t with
        | Expr.and l r => !(decide (key l ∈ t1.map key) || decide (key r ∈ t1.map key))
        | _ => true)
      (q := fun t => match t with
        | Expr.and l r => !(decide (key l ∈ t2.map key) || decide (key r ∈ t2.map key))
        | _ => true)
      (by
        intro x _
        cases x <;> simp only [hk.mem_iff])
    rw [hstep]
    exact h.filter _

theorem basePosOf_mem {t1 t2 : List Expr} (h : t1.Perm t2) (k : Key) :
    k ∈ basePosOf t1 ↔ k ∈ basePosOf t2 :=
  ((h.filter _).map key).mem_iff

theorem baseNegOf_mem {t1 t2 : List Expr} (h : t1.Perm t2) (k : Key) :
    k ∈ baseNegOf t1 ↔ k ∈ baseNegOf t2 :=
  (h.filterMap _).mem_iff

theorem negAbsorbOrStep_congr {t1 t2 : List Expr} (h : t1.Perm t2) :
    negAbsorbOrStep (basePosOf t1) (baseNegOf t1)
    = negAbsorbOrStep (basePosOf t2) (baseNegOf t2) := by
  funext x
  cases x <;>
    simp only [negAbsorbOrStep, basePosOf_mem h, baseNegOf_mem h]

theorem negAbsorbAndStep_congr {t1 t2 : List Expr} (h : t1.Perm t2) :
    negAbsorbAndStep (basePosOf t1) (baseNegOf t1)
    = negAbsorbAndStep (basePosOf t2) (baseNegOf t2) := by
  funext x
  cases x <;>
    simp only [negAbsorbAndStep, basePosOf_mem h, baseNegOf_mem h]

theorem negAbsorptionWithOr_perm {t1 t2 : List Expr} (h : t1.Perm t2) :
    (negAbsorptionWithOr t1).Perm (negAbsorptionWithOr t2) := by
  simp only [negAbsorptionWithOr]
  have hlen := h.length_eq
  by_cases hl : t1.length ≤ 1
  · have hl2 : t2.length ≤ 1 := by omega
    rw [if_pos hl, if_pos hl2]
    exact h
  · have hl2 : ¬t2.length ≤ 1 := by omega
    rw [if_neg hl, if_neg hl2]
    rw [negAbsorbOrStep_congr h]
    have hmap := h.map (negAbsorbOrStep (basePosOf t2) (baseNegOf t2))
    rw [any_perm_congr hmap (fun p => p.2)]
    by_cases hc : ((t2.map (negAbsorbOrStep (basePosOf t2) (baseNegOf t2))).any
        (fun p => p.2)) = true
    · rw [if_pos hc, if_pos hc]
      exact hmap.map _
    · rw [if_neg hc, if_neg hc]
      exact h

theorem negAbsorptionWithAnd_perm {t1 t2 : List Expr} (h : t1.Perm t2) :
    (negAbsorptionWithAnd t1).Perm (negAbsorptionWithAnd t2) := by
  simp only [negAbsorptionWithAnd]
  have hlen := h.length_eq
  by_cases hl : t1.length ≤ 1
  · have hl2 : t2.length ≤ 1 := by omega
    rw [if_pos hl, if_pos hl2]
    exact h
  · have hl2 : ¬t2.length ≤ 1 := by omega
    rw [if_neg hl, if_neg hl2]
    rw [negAbsorbAndStep_congr h]
    have hmap := h.map (negAbsorbAndStep (basePosOf t2) (baseNegOf t2))
    rw [any_perm_congr hmap (fun p => p.2)]
    by_cases hc : ((t2.map (negAbsorbAndStep (basePosOf t2) (baseNegOf t2))).any
        (fun p => p.2)) = true
    · rw [if_pos hc, if_pos hc]
      exact hmap.map _
    · rw [if_neg hc, if_neg hc]
      exact h

theorem isNegPair_comm (a b : Expr) : isNegPair b a = isNegPair a b := by
  simp [isNegPair, Bool.or_comm]

theorem isTrueB_both {a b : Expr} (ha : isTrueB a = true) (hb : isTrueB b = true) :
    a = b := by
  have h1 : a = Expr.bool true := by simpa [isTrueB] using ha
  have h2 : b = Expr.bool true := by simpa [isTrueB] using hb
  rw [h1, h2]

/-- `VarAnd.simplify` returns the same node on swapped operands (for a
dialect with a Bool type): every decision it takes depends only on the
key-sets of the flattened terms, and the final sort restores one order. -/
theorem andSimp_comm (L : Lang) (hB : L.hasBool = true) (a b : Expr) :
    andSimp L a b = andSimp L b a := by
  by_cases heq : a = b
  · rw [heq]
  · unfold andSimp
    have hkne : ¬(key a = key b) := fun h => heq (key_inj a b h)
    have hkne2 : ¬(key b = key a) := fun h => heq (key_inj a b h.symm)
    rcases hfa : isFalseB a with _ | _
    · rcases hfb : isFalseB b with _ | _
      · have hc1 : ¬((L.hasBool && (false || false)) = true) := by simp
        rw [if_neg hc1, if_neg hc1]
        rcases hta : isTrueB a with _ | _
        · rcases htb : isTrueB b with _ | _
          · have hc2 : ¬((L.hasBool && false) = true) := by simp
            rw [if_neg hc2, if_neg hc2, if_neg hc2, if_neg hc2,
              if_neg hkne, if_neg hkne2, isNegPair_comm a b]
            rcases hnp : isNegPair a b with _ | _
            · have hc5 : ¬((false && L.hasBool) = true) := by simp
              rw [if_neg hc5, if_neg hc5]
              have hperm := flattenAndTerms_comm L a b
              simp only []
              rw [detectContradiction_perm L hperm]
              rcases hdet : detectContradiction L (flattenAndTerms L b a) with _ | e
              · rw [if_pos hB, if_pos hB]
                exact rebuildSorted_perm_congr
                  (negAbsorptionWithOr_perm (absorptionWithOr_perm hperm))
                  (.bool true) Expr.and
              · rfl
            · have hc5t : ((true && L.hasBool) = true) := by simp [hB]
              rw [if_pos hc5t, if_pos hc5t]
          · have hc2 : ¬((L.hasBool && false) = true) := by simp
            have hc3t : ((L.hasBool && true) = true) := by simp [hB]
            rw [if_neg hc2, if_pos hc3t, if_pos hc3t]
        · have htb : isTrueB b = false := by
            rcases h2 : isTrueB b with _ | _
            · rfl
            · exact absurd (isTrueB_both hta h2) heq
          have hc2t : ((L.hasBool && true) = true) := by simp [hB]
          have hc2r : ¬((L.hasBool && isTrueB b) = true) := by simp [htb]
          rw [if_pos hc2t, if_neg hc2r, if_pos hc2t]
      · have h1 : ((L.hasBool && (false || true)) = true) := by simp [hB]
        have h2 : ((L.hasBool && (true || false)) = true) := by simp [hB]
        rw [if_pos h1, if_pos h2]
    · have h1 : ((L.hasBool && (true || isFalseB b)) = true) := by simp [hB]
      have h2 : ((L.hasBool && (isFalseB b || true)) = true) := by simp [hB]
      rw [if_pos h1, if_pos h2]

theorem isFalseB_both {a b : Expr} (ha : isFalseB a = true) (hb : isFalseB b = true) :
    a = b := by
  have h1 : a = Expr.bool false := by simpa [isFalseB] using ha
  have h2 : b = Expr.bool false := by simpa [isFalseB] using hb
  rw [h1, h2]

/-- Dual of `andSimp_comm` for `VarOr.simplify`. -/
theorem orSimp_comm (L : Lang) (hB : L.hasBool = true) (a b : Expr) :
    orSimp L a b = orSimp L b a := by
  by_cases heq : a = b
  · rw [heq]
  · unfold orSimp
    have hkne : ¬(key a = key b) := fun h => heq (key_inj a b h)
    have hkne2 : ¬(key b = key a) := fun h => heq (key_inj a b h.symm)
    rcases hta : isTrueB a with _ | _
    · rcases htb : isTrueB b with _ | _
      · have hc1 : ¬((L.hasBool && (false || false)) = true) := by simp
        rw [if_neg hc1, if_neg hc1]
        rcases hfa : isFalseB a with _ | _
        · rcases hfb : isFalseB b with _ | _
          · have hc2 : ¬((L.hasBool && false) = true) := by simp
            rw [if_neg hc2, if_neg hc2, if_neg hc2, if_neg hc2,
              if_neg hkne, if_neg hkne2, isNegPair_comm a b]
            rcases hnp : isNegPair a b with _ | _
            · have hc5 : ¬((false && L.hasBool) = true) := by simp
              rw [if_neg hc5, if_neg hc5]
              have hperm := flattenOrTerms_comm L a b
              simp only []
              rw [detectTautology_perm L hperm]
              rcases hdet : detectTautology L (flattenOrTerms L b a) with _ | e
              · rw [if_pos hB, if_pos hB]
                exact rebuildSorted_perm_congr
                  (negAbsorptionWithAnd_perm (absorptionWithAnd_perm hperm))
                  (.bool false) Expr.or
              · rfl
            · have hc5t : ((true && L.hasBool) = true) := by simp [hB]
              rw [if_pos hc5t, if_pos hc5t]
          · have hc2 : ¬((L.hasBool && false) = true) := by simp
            have hc3t : ((L.hasBool && true) = true) := by simp [hB]
            rw [if_neg hc2, if_pos hc3t, if_pos hc3t]
        · have hfb : isFalseB b = false := by
            rcases h2 : isFalseB b with _ | _
            · rfl
            · exact absurd (isFalseB_both hfa h2) heq
          have hc2t : ((L.hasBool && true) = true) := by simp [hB]
          have hc2r : ¬((L.hasBool && isFalseB b) = true) := by simp [hfb]
          rw [if_pos hc2t, if_neg hc2r, if_pos hc2t]
      · have h1 : ((L.hasBool && (false || true)) = true) := by simp [hB]
        have h2 : ((L.hasBool && (true || false)) = true) := by simp [hB]
        rw [if_pos h1, if_pos h2]
    · have h1 : ((L.hasBool && (true || isTrueB b)) = true) := by simp [hB]
      have h2 : ((L.hasBool && (isTrueB b || true)) = true) := by simp [hB]
      rw [if_pos h1, if_pos h2]

theorem simplify_bool (L : Lang) (n : Nat) (b : Bool) :
    simplify L n (.bool b) = some (.bool b) := by cases n <;> rfl

theorem simplify_int (L : Lang) (n : Nat) (v : Int) :
    simplify L n (.int v) = some (.int v) := by cases n <;> rfl

theorem simplify_str (L : Lang) (n : Nat) (v : String) :
    simplify L n (.str v) = some (.str v) := by cases n <;> rfl

theorem simplify_name (L : Lang) (n : Nat) (s : String) :
    simplify L n (.name s) = some (.name s) := by cases n <;> rfl

theorem simplify_null (L : Lang) (n : Nat) :
    simplify L n .null = some .null := by cases n <;> rfl

theorem simplify_and (L : Lang) (n : Nat) (l r : Expr) :
    simplify L n (.and l r) = some (andSimp L l r) := by cases n <;> rfl

theorem simplify_or (L : Lang) (n : Nat) (l r : Expr) :
    simplify L n (.or l r) = some (orSimp L l r) := by cases n <;> rfl

/-- `_dispatch_binop` commutes whenever simplifying the freshly built
node commutes; the language check, Null short-circuit and
unsupported-operator error are symmetric by inspection. -/
theorem dispatchBinop_comm (L : Lang) (n : Nat) (op : BOp) (a b : Expr)
    (hsym : ∀ x y : Expr, simplify L n (mkOp op x y) = simplify L n (mkOp op y x)) :
    dispatchBinop n op ⟨L, a⟩ ⟨L, b⟩ = dispatchBinop n op ⟨L, b⟩ ⟨L, a⟩ := by
  unfold dispatchBinop
  simp only []
  rw [if_neg (show ¬(L.id ≠ L.id) by simp), if_neg (show ¬(L.id ≠ L.id) by simp)]
  rcases hN : L.hasNull with _ | _
  · have h1 : ¬((false && isNullE a && isNullE b) = true) := by simp
    have h2 : ¬((false && isNullE b && isNullE a) = true) := by simp
    have h3 : ¬((false && isNullE a) = true) := by simp
    have h4 : ¬((false && isNullE b) = true) := by simp
    rw [if_neg h1, if_neg h3, if_neg h4, if_neg h2, if_neg h4, if_neg h3]
    rcases hreg : opReg L op with _ | _
    · rfl
    · rw [if_neg (by simp), if_neg (by simp)]
      rcases hsa : simplify L n a with _ | A <;>
        rcases hsb : simplify L n b with _ | B <;> try rfl
      exact congrArg Except.ok (hsym A B)
  · rcases hnulla : isNullE a with _ | _
    · rcases hnullb : isNullE b with _ | _
      · have h1 : ¬((true && false && false) = true) := by simp
        have h3 : ¬((true && false) = true) := by simp
        rw [if_neg h1, if_neg h3, if_neg h3, if_neg h1, if_neg h3, if_neg h3]
        rcases hreg : opReg L op with _ | _
        · rfl
        · rw [if_neg (by simp), if_neg (by simp)]
          rcases hsa : simplify L n a with _ | A <;>
            rcases hsb : simplify L n b with _ | B <;> try rfl
          exact congrArg Except.ok (hsym A B)
      · have h1 : ¬((true && false && true) = true) := by simp
        have h2 : ¬((true && true && false) = true) := by simp
        have h3 : ¬((true && false) = true) := by simp
        have h4 : ((true && true) = true) := by simp
        rw [if_neg h1, if_neg h3, if_pos h4, if_neg h2, if_pos h4]
    · rcases hnullb : isNullE b with _ | _
      · have h1 : ¬((true && true && false) = true) := by simp
        have h2 : ¬((true && false && true) = true) := by simp
        have h3 : ¬((true && false) = true) := by simp
        have h4 : ((true && true) = true) := by simp
        rw [if_neg h1, if_pos h4, if_neg h2, if_neg h3, if_pos h4]
      · have h1 : ((true && true && true) = true) := by simp
        rw [if_pos h1, if_pos h1]

/-!
## And/Or trees over Name leaves

`VarAnd.simplify` on a tree built only from `Name` leaves and `And`
nodes reduces to: flatten, dedup, sort, left-fold.  Its output is a
fixed point of `simplify` provided the root's children differ by key
(the early `left.key() == right.key()` shortcut returns a *raw*,
possibly unsimplified child).
-/

inductive IsAndNameTree : Expr → Prop
  | name (s : String) : IsAndNameTree (.name s)
  | and {l r : Expr} : IsAndNameTree l → IsAndNameTree r →
      IsAndNameTree (.and l r)

inductive IsOrNameTree : Expr → Prop
  | name (s : String) : IsOrNameTree (.name s)
  | or {l r : Expr} : IsOrNameTree l → IsOrNameTree r →
      IsOrNameTree (.or l r)

def IsName (e : Expr) : Prop := ∃ s, e = Expr.name s

theorem walkAnd_names {e : Expr} (h : IsAndNameTree e) :
    ∀ t ∈ walkAnd e, IsName t := by
  induction h with
  | name s => intro t ht; simp [walkAnd] at ht; exact ⟨s, ht⟩
  | and hl hr ihl ihr =>
    intro t ht
    rw [walkAnd, List.mem_append] at ht
    rcases ht with ht | ht
    · exact ihl t ht
    · exact ihr t ht

theorem walkOr_names {e : Expr} (h : IsOrNameTree e) :
    ∀ t ∈ walkOr e, IsName t := by
  induction h with
  | name s => intro t ht; simp [walkOr] at ht; exact ⟨s, ht⟩
  | or hl hr ihl ihr =>
    intro t ht
    rw [walkOr, List.mem_append] at ht
    rcases ht with ht | ht
    · exact ihl t ht
    · exact ihr t ht

theorem walkAnd_ne_nil {e : Expr} (h : IsAndNameTree e) : walkAnd e ≠ [] := by
  induction h with
  | name s => simp [walkAnd]
  | and hl hr ihl ihr => simp [walkAnd, ihl]

theorem walkOr_ne_nil {e : Expr} (h : IsOrNameTree e) : walkOr e ≠ [] := by
  induction h with
  | name s => simp [walkOr]
  | or hl hr ihl ihr => simp [walkOr, ihl]

theorem name_not_dropped (L : Lang) {l : List Expr} (h : ∀ t ∈ l, IsName t) :
    l.filter (fun e => !(L.hasBool && isTrueB e)) = l := by
  rw [List.filter_eq_self]
  intro t ht
  obtain ⟨s, rfl⟩ := h t ht
  simp [isTrueB]

theorem name_not_dropped_or (L : Lang) {l : List Expr} (h : ∀ t ∈ l, IsName t) :
    l.filter (fun e => !(L.hasBool && isFalseB e)) = l := by
  rw [List.filter_eq_self]
  intro t ht
  obtain ⟨s, rfl⟩ := h t ht
  simp [isFalseB]

theorem mem_dedupKeys_sub {x : Expr} {seen : List Key} {l : List Expr}
    (h : x ∈ dedupKeys seen l) : x ∈ l :=
  (mem_dedupKeys.mp h).1

theorem dedupKeys_ne_nil {l : List Expr} (h : l ≠ []) : dedupKeys [] l ≠ [] := by
  match l with
  | [] => exact absurd rfl h
  | e :: rest =>
    rw [dedupKeys, if_neg (by simp)]
    simp

theorem detect_none_names (L : Lang) {ts : List Expr} (h : ∀ t ∈ ts, IsName t) :
    detectContradiction L ts = none := by
  simp only [detectContradiction]
  rcases hB : L.hasBool with _ | _
  · rfl
  · rw [if_pos rfl, if_neg ?hc]
    case hc =>
      intro hany
      obtain ⟨t, ht, hpt⟩ := List.any_eq_true.mp hany
      obtain ⟨s, rfl⟩ := h t ht
      simp only [decide_eq_true_eq] at hpt
      obtain ⟨u, hu, hku⟩ := List.mem_map.mp hpt
      obtain ⟨s2, rfl⟩ := h u hu
      simp [key] at hku

theorem detect_taut_none_names (L : Lang) {ts : List Expr} (h : ∀ t ∈ ts, IsName t) :
    detectTautology L ts = none := by
  simp only [detectTautology]
  rcases hB : L.hasBool with _ | _
  · rfl
  · rw [if_pos rfl, if_neg ?hc]
    case hc =>
      intro hany
      obtain ⟨t, ht, hpt⟩ := List.any_eq_true.mp hany
      obtain ⟨s, rfl⟩ := h t ht
      simp only [decide_eq_true_eq] at hpt
      obtain ⟨u, hu, hku⟩ := List.mem_map.mp hpt
      obtain ⟨s2, rfl⟩ := h u hu
      simp [key] at hku

theorem absorption_id_names {ts : List Expr} (h : ∀ t ∈ ts, IsName t) :
    absorptionWithOr ts = ts := by
  simp only [absorptionWithOr]
  by_cases he : ts.isEmpty
  · rw [if_pos he]
  · rw [if_neg he]
    rw [List.filter_eq_self]
    intro t ht
    obtain ⟨s, rfl⟩ := h t ht
    rfl

theorem absorption_and_id_names {ts : List Expr} (h : ∀ t ∈ ts, IsName t) :
    absorptionWithAnd ts = ts := by
  simp only [absorptionWithAnd]
  by_cases he : ts.isEmpty
  · rw [if_pos he]
  · rw [if_neg he]
    rw [List.filter_eq_self]
    intro t ht
    obtain ⟨s, rfl⟩ := h t ht
    rfl

theorem negAbsorption_id_names {ts : List Expr} (h : ∀ t ∈ ts, IsName t) :
    negAbsorptionWithOr ts = ts := by
  simp only [negAbsorptionWithOr]
  by_cases hl : ts.length ≤ 1
  · rw [if_pos hl]
  · rw [if_neg hl]
    have hmap : ts.map (negAbsorbOrStep (basePosOf ts) (baseNegOf ts))
        = ts.map (fun t => (t, false)) := by
      apply List.map_congr_left
      intro t ht
      obtain ⟨s, rfl⟩ := h t ht
      rfl
    rw [hmap]
    rw [if_neg ?hany]
    case hany =>
      intro hc
      obtain ⟨p, hp, hp2⟩ := List.any_eq_true.mp hc
      obtain ⟨t, _, rfl⟩ := List.mem_map.mp hp
      simp at hp2

theorem negAbsorption_and_id_names {ts : List Expr} (h : ∀ t ∈ ts, IsName t) :
    negAbsorptionWithAnd ts = ts := by
  simp only [negAbsorptionWithAnd]
  by_cases hl : ts.length ≤ 1
  · rw [if_pos hl]
  · rw [if_neg hl]
    have hmap : ts.map (negAbsorbAndStep (basePosOf ts) (baseNegOf ts))
        = ts.map (fun t => (t, false)) := by
      apply List.map_congr_left
      intro t ht
      obtain ⟨s, rfl⟩ := h t ht
      rfl
    rw [hmap]
    rw [if_neg ?hany]
    case hany =>
      intro hc
      obtain ⟨p, hp, hp2⟩ := List.any_eq_true.mp hc
      obtain ⟨t, _, rfl⟩ := List.mem_map.mp hp
      simp at hp2

theorem andTree_shape {e : Expr} (h : IsAndNameTree e) :
    (∃ s, e = .name s) ∨ (∃ l r, e = .and l r) := by
  cases h with
  | name s => exact Or.inl ⟨s, rfl⟩
  | and hl hr => exact Or.inr ⟨_, _, rfl⟩

theorem orTree_shape {e : Expr} (h : IsOrNameTree e) :
    (∃ s, e = .name s) ∨ (∃ l r, e = .or l r) := by
  cases h with
  | name s => exact Or.inl ⟨s, rfl⟩
  | or hl hr => exact Or.inr ⟨_, _, rfl⟩

theorem andTree_notBool {e : Expr} (h : IsAndNameTree e) :
    isFalseB e = false ∧ isTrueB e = false := by
  rcases andTree_shape h with ⟨s, rfl⟩ | ⟨l, r, rfl⟩ <;>
    simp [isFalseB, isTrueB]

theorem orTree_notBool {e : Expr} (h : IsOrNameTree e) :
    isFalseB e = false ∧ isTrueB e = false := by
  rcases orTree_shape h with ⟨s, rfl⟩ | ⟨l, r, rfl⟩ <;>
    simp [isFalseB, isTrueB]

theorem andTree_key_not_knot {e : Expr} (h : IsAndNameTree e) (k : Key) :
    key e ≠ Key.knot k := by
  rcases andTree_shape h with ⟨s, rfl⟩ | ⟨l, r, rfl⟩ <;> simp [key]

theorem orTree_key_not_knot {e : Expr} (h : IsOrNameTree e) (k : Key) :
    key e ≠ Key.knot k := by
  rcases orTree_shape h with ⟨s, rfl⟩ | ⟨l, r, rfl⟩ <;> simp [key]

theorem andTree_negPair {l r : Expr} (hl : IsAndNameTree l)
    (hr : IsAndNameTree r) : isNegPair l r = false := by
  simp only [isNegPair, Bool.or_eq_false_iff, decide_eq_false_iff_not]
  exact ⟨andTree_key_not_knot hl _, andTree_key_not_knot hr _⟩

theorem orTree_negPair {l r : Expr} (hl : IsOrNameTree l)
    (hr : IsOrNameTree r) : isNegPair l r = false := by
  simp only [isNegPair, Bool.or_eq_false_iff, decide_eq_false_iff_not]
  exact ⟨orTree_key_not_knot hl _, orTree_key_not_knot hr _⟩

/-- On And/Name trees with distinct root keys, `VarAnd.simplify` is
exactly flatten-dedup-sort-rebuild. -/
theorem andSimp_names (L : Lang) {l r : Expr} (hl : IsAndNameTree l)
    (hr : IsAndNameTree r) (hk : key l ≠ key r) :
    andSimp L l r
    = rebuildSorted (dedupKeys [] (walkAnd l ++ walkAnd r)) (.bool true)
        Expr.and := by
  have hnames : ∀ t ∈ walkAnd l ++ walkAnd r, IsName t := by
    intro t ht
    rcases List.mem_append.mp ht with ht | ht
    · exact walkAnd_names hl t ht
    · exact walkAnd_names hr t ht
  have hdnames : ∀ t ∈ dedupKeys [] (walkAnd l ++ walkAnd r), IsName t :=
    fun t ht => hnames t (mem_dedupKeys_sub ht)
  have hddne : dedupKeys [] (walkAnd l ++ walkAnd r) ≠ [] := by
    apply dedupKeys_ne_nil
    intro hc
    exact walkAnd_ne_nil hl (List.append_eq_nil.mp hc).1
  unfold andSimp
  rw [if_neg (by simp [(andTree_notBool hl).1, (andTree_notBool hr).1]),
    if_neg (by simp [(andTree_notBool hl).2]),
    if_neg (by simp [(andTree_notBool hr).2]),
    if_neg hk,
    if_neg (by simp [andTree_negPair hl hr])]
  have hflat : flattenAndTerms L l r = dedupKeys [] (walkAnd l ++ walkAnd r) := by
    unfold flattenAndTerms
    rw [name_not_dropped L hnames]
  simp only [hflat]
  rw [detect_none_names L hdnames, absorption_id_names hdnames,
    negAbsorption_id_names hdnames,
    rebuildSorted_emptyVal hddne (Expr.and l r) (Expr.bool true), ite_self]

/-- Dual for `VarOr.simplify` on Or/Name trees. -/
theorem orSimp_names (L : Lang) {l r : Expr} (hl : IsOrNameTree l)
    (hr : IsOrNameTree r) (hk : key l ≠ key r) :
    orSimp L l r
    = rebuildSorted (dedupKeys [] (walkOr l ++ walkOr r)) (.bool false)
        Expr.or := by
  have hnames : ∀ t ∈ walkOr l ++ walkOr r, IsName t := by
    intro t ht
    rcases List.mem_append.mp ht with ht | ht
    · exact walkOr_names hl t ht
    · exact walkOr_names hr t ht
  have hdnames : ∀ t ∈ dedupKeys [] (walkOr l ++ walkOr r), IsName t :=
    fun t ht => hnames t (mem_dedupKeys_sub ht)
  have hddne : dedupKeys [] (walkOr l ++ walkOr r) ≠ [] := by
    apply dedupKeys_ne_nil
    intro hc
    exact walkOr_ne_nil hl (List.append_eq_nil.mp hc).1
  unfold orSimp
  rw [if_neg (by simp [(orTree_notBool hl).2, (orTree_notBool hr).2]),
    if_neg (by simp [(orTree_notBool hl).1]),
    if_neg (by simp [(orTree_notBool hr).1]),
    if_neg hk,
    if_neg (by simp [orTree_negPair hl hr])]
  have hflat : flattenOrTerms L l r = dedupKeys [] (walkOr l ++ walkOr r) := by
    unfold flattenOrTerms
    rw [name_not_dropped_or L hnames]
  simp only [hflat]
  rw [detect_taut_none_names L hdnames, absorption_and_id_names hdnames,
    negAbsorption_and_id_names hdnames,
    rebuildSorted_emptyVal hddne (Expr.or l r) (Expr.bool false), ite_self]

theorem walkAnd_name_singleton {e : Expr} (h : IsName e) : walkAnd e = [e] := by
  obtain ⟨s, rfl⟩ := h
  rfl

theorem walkOr_name_singleton {e : Expr} (h : IsName e) : walkOr e = [e] := by
  obtain ⟨s, rfl⟩ := h
  rfl

theorem foldl_and_concat (acc : Expr) (init : List Expr) (u : Expr) :
    ((init ++ [u]).foldl Expr.and acc) = .and (init.foldl Expr.and acc) u := by
  rw [List.foldl_append]
  rfl

theorem foldl_or_concat (acc : Expr) (init : List Expr) (u : Expr) :
    ((init ++ [u]).foldl Expr.or acc) = .or (init.foldl Expr.or acc) u := by
  rw [List.foldl_append]
  rfl

theorem walkAnd_foldl (ts : List Expr) :
    ∀ acc : Expr, (∀ x ∈ ts, IsName x) →
    walkAnd (ts.foldl Expr.and acc) = walkAnd acc ++ ts := by
  induction ts with
  | nil =>
    intro acc _
    simp
  | cons i irest ih =>
    intro acc hx
    rw [List.foldl_cons,
      ih (Expr.and acc i) (fun x hx2 => hx x (List.mem_cons_of_mem _ hx2)),
      show walkAnd (Expr.and acc i) = walkAnd acc ++ walkAnd i from rfl,
      walkAnd_name_singleton (hx i (List.mem_cons_self _ _))]
    simp

theorem walkOr_foldl (ts : List Expr) :
    ∀ acc : Expr, (∀ x ∈ ts, IsName x) →
    walkOr (ts.foldl Expr.or acc) = walkOr acc ++ ts := by
  induction ts with
  | nil =>
    intro acc _
    simp
  | cons i irest ih =>
    intro acc hx
    rw [List.foldl_cons,
      ih (Expr.or acc i) (fun x hx2 => hx x (List.mem_cons_of_mem _ hx2)),
      show walkOr (Expr.or acc i) = walkOr acc ++ walkOr i from rfl,
      walkOr_name_singleton (hx i (List.mem_cons_self _ _))]
    simp

theorem foldl_and_tree (ts : List Expr) :
    ∀ acc : Expr, IsAndNameTree acc → (∀ x ∈ ts, IsName x) →
    IsAndNameTree (ts.foldl Expr.and acc) := by
  induction ts with
  | nil =>
    intro acc hacc _
    exact hacc
  | cons i irest ih =>
    intro acc hacc h
    rw [List.foldl_cons]
    refine ih _ ?_ (fun x hx => h x (List.mem_cons_of_mem _ hx))
    obtain ⟨s, rfl⟩ := h i (List.mem_cons_self _ _)
    exact IsAndNameTree.and hacc (IsAndNameTree.name s)

theorem foldl_or_tree (ts : List Expr) :
    ∀ acc : Expr, IsOrNameTree acc → (∀ x ∈ ts, IsName x) →
    IsOrNameTree (ts.foldl Expr.or acc) := by
  induction ts with
  | nil =>
    intro acc hacc _
    exact hacc
  | cons i irest ih =>
    intro acc hacc h
    rw [List.foldl_cons]
    refine ih _ ?_ (fun x hx => h x (List.mem_cons_of_mem _ hx))
    obtain ⟨s, rfl⟩ := h i (List.mem_cons_self _ _)
    exact IsOrNameTree.or hacc (IsOrNameTree.name s)

theorem foldl_and_isAnd (init : List Expr) (acc : Expr) (h : init ≠ []) :
    ∃ x y, init.foldl Expr.and acc = .and x y := by
  induction init generalizing acc with
  | nil => exact absurd rfl h
  | cons i irest ih =>
    rcases irest with _ | ⟨j, jrest⟩
    · exact ⟨acc, i, rfl⟩
    · exact ih (Expr.and acc i) (by simp)

theorem foldl_or_isOr (init : List Expr) (acc : Expr) (h : init ≠ []) :
    ∃ x y, init.foldl Expr.or acc = .or x y := by
  induction init generalizing acc with
  | nil => exact absurd rfl h
  | cons i irest ih =>
    rcases irest with _ | ⟨j, jrest⟩
    · exact ⟨acc, i, rfl⟩
    · exact ih (Expr.or acc i) (by simp)

theorem rebuildSorted_of_sorted {ss : List Expr}
    (hs : ss.Pairwise (fun a b => termLe a b = true)) (v : Expr)
    (op : Expr → Expr → Expr) :
    rebuildSorted ss v op
    = match ss with
      | [] => v
      | t :: ts => ts.foldl op t := by
  match ss with
  | [] => rfl
  | [t] => rfl
  | a :: b :: ts =>
    simp only [rebuildSorted]
    have hs2 : List.Sorted termR (a :: b :: ts) := hs
    rw [List.Sorted.insertionSort_eq hs2]

/-- A sorted, key-distinct, left-folded AND chain of names is a fixed
point of `simplify` (any fuel, any language). -/
theorem chain_fixed (L : Lang) (n : Nat) (s1 : Expr) (stail : List Expr)
    (hnames : ∀ x ∈ s1 :: stail, IsName x)
    (hnodup : ((s1 :: stail).map key).Nodup)
    (hsorted : (s1 :: stail).Pairwise (fun a b => termLe a b = true)) :
    simplify L n (stail.foldl Expr.and s1) = some (stail.foldl Expr.and s1) := by
  rcases List.eq_nil_or_concat stail with rfl | ⟨init, u, rfl⟩
  · obtain ⟨s, rfl⟩ := hnames s1 (List.mem_cons_self _ _)
    exact simplify_name L n s
  · rw [List.concat_eq_append] at hnames hnodup hsorted ⊢
    rw [foldl_and_concat s1 init u]
    have hs1 : IsAndNameTree s1 := by
      obtain ⟨s, rfl⟩ := hnames s1 (List.mem_cons_self _ _)
      exact IsAndNameTree.name s
    have hinitnames : ∀ x ∈ init, IsName x := fun x hx =>
      hnames x (List.mem_cons_of_mem _ (by simp [hx]))
    have hu : IsName u := hnames u (List.mem_cons_of_mem _ (by simp))
    have hAtree : IsAndNameTree (init.foldl Expr.and s1) :=
      foldl_and_tree init s1 hs1 hinitnames
    have hutree : IsAndNameTree u := by
      obtain ⟨s, rfl⟩ := hu
      exact IsAndNameTree.name s
    have hkAu : key (init.foldl Expr.and s1) ≠ key u := by
      rcases init with _ | ⟨i, irest⟩
      · have h2 := hnodup
        simp only [List.nil_append, List.map_cons, List.nodup_cons] at h2
        intro hc
        have hc2 : key s1 = key u := hc
        exact h2.1 (by simp [hc2])
      · obtain ⟨x, y, hxy⟩ := foldl_and_isAnd (i :: irest) s1 (by simp)
        obtain ⟨s, rfl⟩ := hu
        rw [hxy]
        simp [key]
    rw [simplify_and, andSimp_names L hAtree hutree hkAu]
    have hwalks : walkAnd (init.foldl Expr.and s1) ++ walkAnd u
        = s1 :: (init ++ [u]) := by
      rw [walkAnd_foldl init s1 hinitnames,
        walkAnd_name_singleton (hnames s1 (List.mem_cons_self _ _)),
        walkAnd_name_singleton hu]
      simp
    rw [hwalks, dedupKeys_eq_self hnodup (fun x _ => List.not_mem_nil _),
      rebuildSorted_of_sorted hsorted]
    exact congrArg some (foldl_and_concat s1 init u)

/-- Dual of `chain_fixed` for OR chains. -/
theorem chain_fixed_or (L : Lang) (n : Nat) (s1 : Expr) (stail : List Expr)
    (hnames : ∀ x ∈ s1 :: stail, IsName x)
    (hnodup : ((s1 :: stail).map key).Nodup)
    (hsorted : (s1 :: stail).Pairwise (fun a b => termLe a b = true)) :
    simplify L n (stail.foldl Expr.or s1) = some (stail.foldl Expr.or s1) := by
  rcases List.eq_nil_or_concat stail with rfl | ⟨init, u, rfl⟩
  · obtain ⟨s, rfl⟩ := hnames s1 (List.mem_cons_self _ _)
    exact simplify_name L n s
  · rw [List.concat_eq_append] at hnames hnodup hsorted ⊢
    rw [foldl_or_concat s1 init u]
    have hs1 : IsOrNameTree s1 := by
      obtain ⟨s, rfl⟩ := hnames s1 (List.mem_cons_self _ _)
      exact IsOrNameTree.name s
    have hinitnames : ∀ x ∈ init, IsName x := fun x hx =>
      hnames x (List.mem_cons_of_mem _ (by simp [hx]))
    have hu : IsName u := hnames u (List.mem_cons_of_mem _ (by simp))
    have hAtree : IsOrNameTree (init.foldl Expr.or s1) :=
      foldl_or_tree init s1 hs1 hinitnames
    have hutree : IsOrNameTree u := by
      obtain ⟨s, rfl⟩ := hu
      exact IsOrNameTree.name s
    have hkAu : key (init.foldl Expr.or s1) ≠ key u := by
      rcases init with _ | ⟨i, irest⟩
      · have h2 := hnodup
        simp only [List.nil_append, List.map_cons, List.nodup_cons] at h2
        intro hc
        have hc2 : key s1 = key u := hc
        exact h2.1 (by simp [hc2])
      · obtain ⟨x, y, hxy⟩ := foldl_or_isOr (i :: irest) s1 (by simp)
        obtain ⟨s, rfl⟩ := hu
        rw [hxy]
        simp [key]
    rw [simplify_or, orSimp_names L hAtree hutree hkAu]
    have hwalks : walkOr (init.foldl Expr.or s1) ++ walkOr u
        = s1 :: (init ++ [u]) := by
      rw [walkOr_foldl init s1 hinitnames,
        walkOr_name_singleton (hnames s1 (List.mem_cons_self _ _)),
        walkOr_name_singleton hu]
      simp
    rw [hwalks, dedupKeys_eq_self hnodup (fun x _ => List.not_mem_nil _),
      rebuildSorted_of_sorted hsorted]
    exact congrArg some (foldl_or_concat s1 init u)

theorem rebuild_of_names_fixed (L : Lang) (m : Nat) (dd : List Expr)
    (hdnames : ∀ t ∈ dd, IsName t) (hdnodup : (dd.map key).Nodup) :
    simplify L m (rebuildSorted dd (.bool true) Expr.and)
    = some (rebuildSorted dd (.bool true) Expr.and) := by
  rcases dd with _ | ⟨t1, drest⟩
  · exact simplify_bool L m true
  · rcases drest with _ | ⟨t2, ts⟩
    · obtain ⟨s, rfl⟩ := hdnames t1 (List.mem_cons_self _ _)
      exact simplify_name L m s
    · simp only [rebuildSorted]
      have hperm := List.perm_insertionSort termR (t1 :: t2 :: ts)
      have hsortedm := List.sorted_insertionSort termR (t1 :: t2 :: ts)
      rcases hm : List.insertionSort termR (t1 :: t2 :: ts) with _ | ⟨s1, stail⟩
      · rw [hm] at hperm
        exact absurd hperm.symm (by simp)
      · rw [hm] at hperm hsortedm
        have hnames2 : ∀ x ∈ s1 :: stail, IsName x := fun x hx =>
          hdnames x (hperm.mem_iff.mp hx)
        have hnodup2 : ((s1 :: stail).map key).Nodup :=
          ((hperm.map key).nodup_iff).mpr hdnodup
        exact chain_fixed L m s1 stail hnames2 hnodup2 hsortedm

theorem rebuild_of_names_fixed_or (L : Lang) (m : Nat) (dd : List Expr)
    (hdnames : ∀ t ∈ dd, IsName t) (hdnodup : (dd.map key).Nodup) :
    simplify L m (rebuildSorted dd (.bool false) Expr.or)
    = some (rebuildSorted dd (.bool false) Expr.or) := by
  rcases dd with _ | ⟨t1, drest⟩
  · exact simplify_bool L m false
  · rcases drest with _ | ⟨t2, ts⟩
    · obtain ⟨s, rfl⟩ := hdnames t1 (List.mem_cons_self _ _)
      exact simplify_name L m s
    · simp only [rebuildSorted]
      have hperm := List.perm_insertionSort termR (t1 :: t2 :: ts)
      have hsortedm := List.sorted_insertionSort termR (t1 :: t2 :: ts)
      rcases hm : List.insertionSort termR (t1 :: t2 :: ts) with _ | ⟨s1, stail⟩
      · rw [hm] at hperm
        exact absurd hperm.symm (by simp)
      · rw [hm] at hperm hsortedm
        have hnames2 : ∀ x ∈ s1 :: stail, IsName x := fun x hx =>
          hdnames x (hperm.mem_iff.mp hx)
        have hnodup2 : ((s1 :: stail).map key).Nodup :=
          ((hperm.map key).nodup_iff).mpr hdnodup
        exact chain_fixed_or L m s1 stail hnames2 hnodup2 hsortedm

/-- Canonical form produced by the AND pipeline from a term list. -/
def normAnd (l : List Expr) : Expr :=
  rebuildSorted (dedupKeys [] l) (.bool true) Expr.and

/-- Canonical form produced by the OR pipeline from a term list. -/
def normOr (l : List Expr) : Expr :=
  rebuildSorted (dedupKeys [] l) (.bool false) Expr.or

theorem mem_iff_key_mem {x : Expr} {l : List Expr} :
    x ∈ l ↔ key x ∈ l.map key := by
  constructor
  · exact fun h => List.mem_map_of_mem key h
  · intro h
    obtain ⟨y, hy, hky⟩ := List.mem_map.mp h
    obtain rfl := key_inj y x hky
    exact hy

theorem normAnd_keyset_congr {l1 l2 : List Expr}
    (h : ∀ k, k ∈ l1.map key ↔ k ∈ l2.map key) : normAnd l1 = normAnd l2 := by
  unfold normAnd
  apply rebuildSorted_perm_congr
  rw [List.perm_ext_iff_of_nodup (dedupKeys_nodup [] l1) (dedupKeys_nodup [] l2)]
  intro x
  rw [mem_dedupKeys, mem_dedupKeys]
  simp only [List.not_mem_nil, not_false_iff, and_true]
  rw [mem_iff_key_mem, mem_iff_key_mem]
  exact h _

theorem normOr_keyset_congr {l1 l2 : List Expr}
    (h : ∀ k, k ∈ l1.map key ↔ k ∈ l2.map key) : normOr l1 = normOr l2 := by
  unfold normOr
  apply rebuildSorted_perm_congr
  rw [List.perm_ext_iff_of_nodup (dedupKeys_nodup [] l1) (dedupKeys_nodup [] l2)]
  intro x
  rw [mem_dedupKeys, mem_dedupKeys]
  simp only [List.not_mem_nil, not_false_iff, and_true]
  rw [mem_iff_key_mem, mem_iff_key_mem]
  exact h _

theorem normAnd_fixed (L : Lang) (m : Nat) {l : List Expr}
    (h : ∀ x ∈ l, IsName x) :
    simplify L m (normAnd l) = some (normAnd l) :=
  rebuild_of_names_fixed L m _ (fun t ht => h t (mem_dedupKeys_sub ht))
    (dedupKeys_nodupkeys [] l).1

theorem normOr_fixed (L : Lang) (m : Nat) {l : List Expr}
    (h : ∀ x ∈ l, IsName x) :
    simplify L m (normOr l) = some (normOr l) :=
  rebuild_of_names_fixed_or L m _ (fun t ht => h t (mem_dedupKeys_sub ht))
    (dedupKeys_nodupkeys [] l).1

theorem normAnd_tree {l : List Expr} (h : ∀ x ∈ l, IsName x) (hne : l ≠ []) :
    IsAndNameTree (normAnd l) := by
  unfold normAnd
  have hdn : ∀ x ∈ dedupKeys [] l, IsName x := fun t ht => h t (mem_dedupKeys_sub ht)
  have hdne := dedupKeys_ne_nil hne
  rcases hd : dedupKeys [] l with _ | ⟨t1, drest⟩
  · exact absurd hd hdne
  · rcases drest with _ | ⟨t2, ts⟩
    · obtain ⟨s, rfl⟩ := hdn t1 (by rw [hd]; exact List.mem_cons_self _ _)
      exact IsAndNameTree.name s
    · simp only [rebuildSorted]
      have hperm := List.perm_insertionSort termR (t1 :: t2 :: ts)
      rcases hm : List.insertionSort termR (t1 :: t2 :: ts) with _ | ⟨s1, stail⟩
      · rw [hm] at hperm
        exact absurd hperm.symm (by simp)
      · rw [hm] at hperm
        have hnames2 : ∀ x ∈ s1 :: stail, IsName x := fun x hx =>
          hdn x (by rw [hd]; exact hperm.mem_iff.mp hx)
        refine foldl_and_tree stail s1 ?_
          (fun x hx => hnames2 x (List.mem_cons_of_mem _ hx))
        obtain ⟨s, rfl⟩ := hnames2 s1 (List.mem_cons_self _ _)
        exact IsAndNameTree.name s

theorem normOr_tree {l : List Expr} (h : ∀ x ∈ l, IsName x) (hne : l ≠ []) :
    IsOrNameTree (normOr l) := by
  unfold normOr
  have hdn : ∀ x ∈ dedupKeys [] l, IsName x := fun t ht => h t (mem_dedupKeys_sub ht)
  have hdne := dedupKeys_ne_nil hne
  rcases hd : dedupKeys [] l with _ | ⟨t1, drest⟩
  · exact absurd hd hdne
  · rcases drest with _ | ⟨t2, ts⟩
    · obtain ⟨s, rfl⟩ := hdn t1 (by rw [hd]; exact List.mem_cons_self _ _)
      exact IsOrNameTree.name s
    · simp only [rebuildSorted]
      have hperm := List.perm_insertionSort termR (t1 :: t2 :: ts)
      rcases hm : List.insertionSort termR (t1 :: t2 :: ts) with _ | ⟨s1, stail⟩
      · rw [hm] at hperm
        exact absurd hperm.symm (by simp)
      · rw [hm] at hperm
        have hnames2 : ∀ x ∈ s1 :: stail, IsName x := fun x hx =>
          hdn x (by rw [hd]; exact hperm.mem_iff.mp hx)
        refine foldl_or_tree stail s1 ?_
          (fun x hx => hnames2 x (List.mem_cons_of_mem _ hx))
        obtain ⟨s, rfl⟩ := hnames2 s1 (List.mem_cons_self _ _)
        exact IsOrNameTree.name s


theorem walkAnd_normAnd_perm {l : List Expr} (h : ∀ x ∈ l, IsName x)
    (hne : l ≠ []) : (walkAnd (normAnd l)).Perm (dedupKeys [] l) := by
  unfold normAnd
  have hdn : ∀ x ∈ dedupKeys [] l, IsName x := fun t ht => h t (mem_dedupKeys_sub ht)
  have hdne := dedupKeys_ne_nil hne
  rcases hd : dedupKeys [] l with _ | ⟨t1, drest⟩
  · exact absurd hd hdne
  · rcases drest with _ | ⟨t2, ts⟩
    · show (walkAnd t1).Perm [t1]
      rw [walkAnd_name_singleton (hdn t1 (by rw [hd]; exact List.mem_cons_self _ _))]
    · simp only [rebuildSorted]
      have hperm := List.perm_insertionSort termR (t1 :: t2 :: ts)
      rcases hm : List.insertionSort termR (t1 :: t2 :: ts) with _ | ⟨s1, stail⟩
      · rw [hm] at hperm
        exact absurd hperm.symm (by simp)
      · rw [hm] at hperm
        have hnames2 : ∀ x ∈ s1 :: stail, IsName x := fun x hx =>
          hdn x (by rw [hd]; exact hperm.mem_iff.mp hx)
        rw [walkAnd_foldl stail s1
            (fun x hx => hnames2 x (List.mem_cons_of_mem _ hx)),
          walkAnd_name_singleton (hnames2 s1 (List.mem_cons_self _ _))]
        exact hperm

theorem walkOr_normOr_perm {l : List Expr} (h : ∀ x ∈ l, IsName x)
    (hne : l ≠ []) : (walkOr (normOr l)).Perm (dedupKeys [] l) := by
  unfold normOr
  have hdn : ∀ x ∈ dedupKeys [] l, IsName x := fun t ht => h t (mem_dedupKeys_sub ht)
  have hdne := dedupKeys_ne_nil hne
  rcases hd : dedupKeys [] l with _ | ⟨t1, drest⟩
  · exact absurd hd hdne
  · rcases drest with _ | ⟨t2, ts⟩
    · show (walkOr t1).Perm [t1]
      rw [walkOr_name_singleton (hdn t1 (by rw [hd]; exact List.mem_cons_self _ _))]
    · simp only [rebuildSorted]
      have hperm := List.perm_insertionSort termR (t1 :: t2 :: ts)
      rcases hm : List.insertionSort termR (t1 :: t2 :: ts) with _ | ⟨s1, stail⟩
      · rw [hm] at hperm
        exact absurd hperm.symm (by simp)
      · rw [hm] at hperm
        have hnames2 : ∀ x ∈ s1 :: stail, IsName x := fun x hx =>
          hdn x (by rw [hd]; exact hperm.mem_iff.mp hx)
        rw [walkOr_foldl stail s1
            (fun x hx => hnames2 x (List.mem_cons_of_mem _ hx)),
          walkOr_name_singleton (hnames2 s1 (List.mem_cons_self _ _))]
        exact hperm

theorem keyset_dedup {l : List Expr} {k : Key} :
    k ∈ (dedupKeys [] l).map key ↔ k ∈ l.map key := by
  constructor <;> intro h <;> obtain ⟨y, hy, hky⟩ := List.mem_map.mp h
  · exact List.mem_map.mpr ⟨y, (mem_dedupKeys.mp hy).1, hky⟩
  · exact List.mem_map.mpr ⟨y, mem_dedupKeys.mpr ⟨hy, List.not_mem_nil _⟩, hky⟩

theorem keyset_walkAnd_normAnd {l : List Expr} (h : ∀ x ∈ l, IsName x)
    (hne : l ≠ []) {k : Key} :
    k ∈ (walkAnd (normAnd l)).map key ↔ k ∈ l.map key := by
  rw [((walkAnd_normAnd_perm h hne).map key).mem_iff]
  exact keyset_dedup

theorem keyset_walkOr_normOr {l : List Expr} (h : ∀ x ∈ l, IsName x)
    (hne : l ≠ []) {k : Key} :
    k ∈ (walkOr (normOr l)).map key ↔ k ∈ l.map key := by
  rw [((walkOr_normOr_perm h hne).map key).mem_iff]
  exact keyset_dedup

theorem andSimp_key_eq (L : Lang) {l r : Expr} (hl : IsAndNameTree l)
    (hr : IsAndNameTree r) (hk : key l = key r) : andSimp L l r = l := by
  unfold andSimp
  rw [if_neg (by simp [(andTree_notBool hl).1, (andTree_notBool hr).1]),
    if_neg (by simp [(andTree_notBool hl).2]),
    if_neg (by simp [(andTree_notBool hr).2]),
    if_pos hk]

theorem orSimp_key_eq (L : Lang) {l r : Expr} (hl : IsOrNameTree l)
    (hr : IsOrNameTree r) (hk : key l = key r) : orSimp L l r = l := by
  unfold orSimp
  rw [if_neg (by simp [(orTree_notBool hl).2, (orTree_notBool hr).2]),
    if_neg (by simp [(orTree_notBool hl).1]),
    if_neg (by simp [(orTree_notBool hr).1]),
    if_pos hk]

/-- On canonical name conjunctions, `VarAnd.simplify` concatenates the
underlying term lists. -/
theorem andSimp_norm (L : Lang) {l1 l2 : List Expr}
    (h1 : ∀ x ∈ l1, IsName x) (h2 : ∀ x ∈ l2, IsName x)
    (hne1 : l1 ≠ []) (hne2 : l2 ≠ []) :
    andSimp L (normAnd l1) (normAnd l2) = normAnd (l1 ++ l2) := by
  have ht1 := normAnd_tree h1 hne1
  have ht2 := normAnd_tree h2 hne2
  by_cases hk : key (normAnd l1) = key (normAnd l2)
  · rw [andSimp_key_eq L ht1 ht2 hk]
    have heq := key_inj _ _ hk
    have hks : ∀ k : Key, k ∈ l2.map key ↔ k ∈ l1.map key := by
      intro k
      rw [← keyset_walkAnd_normAnd h2 hne2, ← heq,
        keyset_walkAnd_normAnd h1 hne1]
    apply normAnd_keyset_congr
    intro k
    simp only [List.map_append, List.mem_append]
    rw [hks k]
    simp
  · rw [andSimp_names L ht1 ht2 hk]
    show normAnd (walkAnd (normAnd l1) ++ walkAnd (normAnd l2)) = normAnd (l1 ++ l2)
    apply normAnd_keyset_congr
    intro k
    simp only [List.map_append, List.mem_append]
    rw [keyset_walkAnd_normAnd h1 hne1, keyset_walkAnd_normAnd h2 hne2]

/-- Dual for canonical name disjunctions. -/
theorem orSimp_norm (L : Lang) {l1 l2 : List Expr}
    (h1 : ∀ x ∈ l1, IsName x) (h2 : ∀ x ∈ l2, IsName x)
    (hne1 : l1 ≠ []) (hne2 : l2 ≠ []) :
    orSimp L (normOr l1) (normOr l2) = normOr (l1 ++ l2) := by
  have ht1 := normOr_tree h1 hne1
  have ht2 := normOr_tree h2 hne2
  by_cases hk : key (normOr l1) = key (normOr l2)
  · rw [orSimp_key_eq L ht1 ht2 hk]
    have heq := key_inj _ _ hk
    have hks : ∀ k : Key, k ∈ l2.map key ↔ k ∈ l1.map key := by
      intro k
      rw [← keyset_walkOr_normOr h2 hne2, ← heq,
        keyset_walkOr_normOr h1 hne1]
    apply normOr_keyset_congr
    intro k
    simp only [List.map_append, List.mem_append]
    rw [hks k]
    simp
  · rw [orSimp_names L ht1 ht2 hk]
    show normOr (walkOr (normOr l1) ++ walkOr (normOr l2)) = normOr (l1 ++ l2)
    apply normOr_keyset_congr
    intro k
    simp only [List.map_append, List.mem_append]
    rw [keyset_walkOr_normOr h1 hne1, keyset_walkOr_normOr h2 hne2]

theorem andTree_not_null {e : Expr} (h : IsAndNameTree e) : isNullE e = false := by
  rcases andTree_shape h with ⟨s, rfl⟩ | ⟨l, r, rfl⟩ <;> simp [isNullE]

theorem orTree_not_null {e : Expr} (h : IsOrNameTree e) : isNullE e = false := by
  rcases orTree_shape h with ⟨s, rfl⟩ | ⟨l, r, rfl⟩ <;> simp [isNullE]

/-- The eager `&` overload on canonical name conjunctions over one
dialect concatenates the term lists and renormalises. -/
theorem dispatch_and_norm (n : Nat) (L : Lang) (hA : L.hasAnd = true)
    {l1 l2 : List Expr} (h1 : ∀ x ∈ l1, IsName x) (h2 : ∀ x ∈ l2, IsName x)
    (hne1 : l1 ≠ []) (hne2 : l2 ≠ []) :
    dispatchBinop n .and ⟨L, normAnd l1⟩ ⟨L, normAnd l2⟩
      = .ok (some (normAnd (l1 ++ l2))) := by
  have ht1 := normAnd_tree h1 hne1
  have ht2 := normAnd_tree h2 hne2
  unfold dispatchBinop
  rw [if_neg (by simp)]
  simp only
  rw [if_neg (by simp [andTree_not_null ht1]),
    if_neg (by simp [andTree_not_null ht1]),
    if_neg (by simp [andTree_not_null ht2]),
    if_neg (by simp [opReg, hA]),
    normAnd_fixed L n h1, normAnd_fixed L n h2]
  show Except.ok (simplify L n (.and (normAnd l1) (normAnd l2))) = _
  rw [simplify_and, andSimp_norm L h1 h2 hne1 hne2]

/-- Dual: the eager `|` overload on canonical name disjunctions. -/
theorem dispatch_or_norm (n : Nat) (L : Lang) (hO : L.hasOr = true)
    {l1 l2 : List Expr} (h1 : ∀ x ∈ l1, IsName x) (h2 : ∀ x ∈ l2, IsName x)
    (hne1 : l1 ≠ []) (hne2 : l2 ≠ []) :
    dispatchBinop n .or ⟨L, normOr l1⟩ ⟨L, normOr l2⟩
      = .ok (some (normOr (l1 ++ l2))) := by
  have ht1 := normOr_tree h1 hne1
  have ht2 := normOr_tree h2 hne2
  unfold dispatchBinop
  rw [if_neg (by simp)]
  simp only
  rw [if_neg (by simp [orTree_not_null ht1]),
    if_neg (by simp [orTree_not_null ht1]),
    if_neg (by simp [orTree_not_null ht2]),
    if_neg (by simp [opReg, hO]),
    normOr_fixed L n h1, normOr_fixed L n h2]
  show Except.ok (simplify L n (.or (normOr l1) (normOr l2))) = _
  rw [simplify_or, orSimp_norm L h1 h2 hne1 hne2]

/-!
## Concrete dialects and the claims
-/

/-- A dialect with every type and operator registered, like the Kconfig
dialect of the repository. -/
def fullLang : Lang :=
  { id := 0, hasBool := true, hasName := true, hasNull := true,
    hasInt := true, hasString := true, hasNot := true, hasAnd := true,
    hasOr := true, hasAdd := true, hasSub := true, hasMul := true,
    hasDiv := true }

/-- A second dialect with the same capabilities but a distinct identity
(a second `Language()` instance). -/
def otherLang : Lang :=
  { id := 1, hasBool := true, hasName := true, hasNull := true,
    hasInt := true, hasString := true, hasNot := true, hasAnd := true,
    hasOr := true, hasAdd := true, hasSub := true, hasMul := true,
    hasDiv := true }

/-- `(x & y) & (~x | ~y)`: a conjunction whose right child is the
De-Morganed negation of its left child. -/
def c1Input : Expr :=
  .and (.and (.name "x") (.name "y"))
    (.or (.not (.name "x")) (.not (.name "y")))

/-- C1 counterexample.  One `simplify` pass over `(x & y) & (~x | ~y)`
does NOT reach a fixed point: negated absorption runs after contradiction
detection, strips `~x` from the De-Morganed disjunct and leaves
`(x & y) & ~y`, which a second pass collapses to `False` — a different
key.  Refutes the claim as stated. -/
theorem C1_counterexample :
    simplify fullLang 9 c1Input
      = some (.and (.and (.name "x") (.name "y")) (.not (.name "y")))
    ∧ simplify fullLang 9
        (.and (.and (.name "x") (.name "y")) (.not (.name "y")))
      = some (.bool false)
    ∧ key (Expr.bool false)
      ≠ key (Expr.and (.and (.name "x") (.name "y")) (.not (.name "y"))) :=
  ⟨by decide, by decide, by decide⟩

/-- C1 (amended): on conjunctions of variables (And/Name trees) whose two
root children have distinct keys — so no absorption interaction can
arise — a single `simplify` pass does reach a fixed point: the result
simplifies to itself, for any dialect and any fuel. -/
theorem C1_single_pass_fixed_point (L : Lang) (n m : Nat) {e : Expr}
    (h : IsAndNameTree e)
    (hk : ∀ l r, e = .and l r → key l ≠ key r) :
    ∃ d, simplify L n e = some d ∧ simplify L m d = some d := by
  cases h with
  | name s => exact ⟨.name s, simplify_name L n s, simplify_name L m s⟩
  | and hl hr =>
    rw [simplify_and, andSimp_names L hl hr (hk _ _ rfl)]
    refine ⟨_, rfl, rebuild_of_names_fixed L m _ ?_ ?_⟩
    · intro t ht
      rcases List.mem_append.mp (mem_dedupKeys_sub ht) with h1 | h1
      · exact walkAnd_names hl t h1
      · exact walkAnd_names hr t h1
    · exact (dedupKeys_nodupkeys [] _).1

theorem C1_single_pass_fixed_point_witness :
    ∃ d, simplify fullLang 0 (.and (.name "a") (.name "b")) = some d
      ∧ simplify fullLang 0 d = some d :=
  C1_single_pass_fixed_point fullLang 0 0
    (IsAndNameTree.and (IsAndNameTree.name "a") (IsAndNameTree.name "b"))
    (by intro l r he; cases he; decide)

theorem simplify_not_name (L : Lang) (n : Nat) (s : String) :
    simplify L (n + 1) (.not (.name s)) = some (.not (.name s)) := by
  simp [simplify, isTrueB, isFalseB]

theorem andSimp_name_negpair (L : Lang) (s : String) (hB : L.hasBool = true) :
    andSimp L (.name s) (.not (.name s)) = .bool false := by
  unfold andSimp
  rw [if_neg (by simp [isFalseB]), if_neg (by simp [isTrueB]),
    if_neg (by simp [isTrueB]), if_neg (by simp [key]),
    if_pos (by simp [isNegPair, key, hB])]

theorem orSimp_name_negpair (L : Lang) (s : String) (hB : L.hasBool = true) :
    orSimp L (.name s) (.not (.name s)) = .bool true := by
  unfold orSimp
  rw [if_neg (by simp [isTrueB]), if_neg (by simp [isFalseB]),
    if_neg (by simp [isFalseB]), if_neg (by simp [key]),
    if_pos (by simp [isNegPair, key, hB])]

/-- C2 (amended): the contradiction/tautology collapse holds for an
atomic variable `a = Name(s)`: with Bool, Not, And, Or bound, the eager
`~` gives `Not(a)`, and `simplify(a & ~a)` / `simplify(a | ~a)` collapse
to the dialect's False / True via the negation-pair shortcut.  The
original unrestricted claim fails for composite `a` (see the
counterexample). -/
theorem C2_negation_cancel (L : Lang) (n : Nat) (s : String)
    (hB : L.hasBool = true) (hN : L.hasNot = true)
    (hA : L.hasAnd = true) (hO : L.hasOr = true) :
    invertOp (n + 1) ⟨L, .name s⟩ = .ok (some (.not (.name s)))
    ∧ combineThenSimp (n + 1) .and ⟨L, .name s⟩ ⟨L, .not (.name s)⟩
        = .ok (some (.bool false))
    ∧ combineThenSimp (n + 1) .or ⟨L, .name s⟩ ⟨L, .not (.name s)⟩
        = .ok (some (.bool true)) := by
  refine ⟨?_, ?_, ?_⟩
  · unfold invertOp
    rw [if_neg (by simp [isNullE]), if_neg (by simp [hN]), simplify_name]
    show Except.ok (simplify L (n + 1) (Expr.not (Expr.name s))) = _
    rw [simplify_not_name]
  · have hd : dispatchBinop (n + 1) .and ⟨L, .name s⟩ ⟨L, .not (.name s)⟩
        = .ok (some (.bool false)) := by
      unfold dispatchBinop
      rw [if_neg (by simp)]
      simp only
      rw [if_neg (by simp [isNullE]), if_neg (by simp [isNullE]),
        if_neg (by simp [isNullE]), if_neg (by simp [opReg, hA]),
        simplify_name, simplify_not_name]
      show Except.ok (simplify L (n + 1) (.and (.name s) (.not (.name s)))) = _
      rw [simplify_and, andSimp_name_negpair L s hB]
    unfold combineThenSimp
    rw [hd]
    show Except.ok (simplify L (n + 1) (.bool false)) = _
    rw [simplify_bool]
  · have hd : dispatchBinop (n + 1) .or ⟨L, .name s⟩ ⟨L, .not (.name s)⟩
        = .ok (some (.bool true)) := by
      unfold dispatchBinop
      rw [if_neg (by simp)]
      simp only
      rw [if_neg (by simp [isNullE]), if_neg (by simp [isNullE]),
        if_neg (by simp [isNullE]), if_neg (by simp [opReg, hO]),
        simplify_name, simplify_not_name]
      show Except.ok (simplify L (n + 1) (.or (.name s) (.not (.name s)))) = _
      rw [simplify_or, orSimp_name_negpair L s hB]
    unfold combineThenSimp
    rw [hd]
    show Except.ok (simplify L (n + 1) (.bool true)) = _
    rw [simplify_bool]

theorem C2_negation_cancel_witness :
    invertOp 1 ⟨fullLang, .name "a"⟩ = .ok (some (.not (.name "a")))
    ∧ combineThenSimp 1 .and ⟨fullLang, .name "a"⟩ ⟨fullLang, .not (.name "a")⟩
        = .ok (some (.bool false))
    ∧ combineThenSimp 1 .or ⟨fullLang, .name "a"⟩ ⟨fullLang, .not (.name "a")⟩
        = .ok (some (.bool true)) :=
  C2_negation_cancel fullLang 0 "a" rfl rfl rfl rfl

/-- `x & y & z` as Python's left-nested eager combination produces this
already-canonical conjunction. -/
def c2aInput : Expr := .and (.and (.name "x") (.name "y")) (.name "z")

/-- C2 counterexample.  For the composite `a = x & y & z`, the eager `~a`
De-Morgans into `~x | ~y | ~z`, and `simplify(a & ~a)` is NOT the False
constant (negated absorption eats the disjunct first), nor is
`simplify(a | ~a)` the True constant.  Refutes the unrestricted claim. -/
theorem C2_counterexample :
    invertOp 9 ⟨fullLang, c2aInput⟩
      = .ok (some (.or (.or (.not (.name "x")) (.not (.name "y")))
          (.not (.name "z"))))
    ∧ combineThenSimp 9 .and ⟨fullLang, c2aInput⟩
        ⟨fullLang, .or (.or (.not (.name "x")) (.not (.name "y")))
          (.not (.name "z"))⟩
      = .ok (some (.and c2aInput (.not (.name "y"))))
    ∧ (Expr.and c2aInput (.not (.name "y"))) ≠ .bool false
    ∧ combineThenSimp 9 .or ⟨fullLang, c2aInput⟩
        ⟨fullLang, .or (.or (.not (.name "x")) (.not (.name "y")))
          (.not (.name "z"))⟩
      = .ok (some (.or (.or (.or (.name "y") (.not (.name "x")))
          (.not (.name "y"))) (.not (.name "z"))))
    ∧ (Expr.or (.or (.or (.name "y") (.not (.name "x"))) (.not (.name "y")))
        (.not (.name "z"))) ≠ .bool true := by
  exact ⟨rfl, rfl, by decide, rfl, by decide⟩

theorem normAnd_singleton (x : Expr) : normAnd [x] = x := rfl

theorem normOr_singleton (x : Expr) : normOr [x] = x := rfl

theorem names_of_list {l : List Expr} (h : ∀ x ∈ l, ∃ s, x = Expr.name s) :
    ∀ x ∈ l, IsName x := h

/-- C4 (amended).  Commutativity holds unconditionally: for every pair of
expressions of one Bool-equipped dialect, the eager `a & b` followed by
`simplify` returns exactly what `b & a` does, and likewise for `|`.
Associativity holds for variable atoms: `(s & t) & u` and `s & (t & u)`
(eager overloads, each stage re-simplified) produce one identical tree,
and likewise for `|`.  For arbitrary operands associativity fails (see
the counterexample): a raw `key`-equal pair short-circuits `simplify`
before canonicalization, so one association order can keep an
un-normalised subtree. -/
theorem C4_and_or_canonicalization (L : Lang) (n : Nat)
    (hB : L.hasBool = true) (hA : L.hasAnd = true) (hO : L.hasOr = true) :
    (∀ a b : Expr,
      combineThenSimp n .and ⟨L, a⟩ ⟨L, b⟩ = combineThenSimp n .and ⟨L, b⟩ ⟨L, a⟩
      ∧ combineThenSimp n .or ⟨L, a⟩ ⟨L, b⟩ = combineThenSimp n .or ⟨L, b⟩ ⟨L, a⟩)
    ∧ (∀ s t u : String,
      ∃ st tu r : Expr,
        dispatchBinop n .and ⟨L, .name s⟩ ⟨L, .name t⟩ = .ok (some st)
        ∧ dispatchBinop n .and ⟨L, .name t⟩ ⟨L, .name u⟩ = .ok (some tu)
        ∧ combineThenSimp n .and ⟨L, st⟩ ⟨L, .name u⟩ = .ok (some r)
        ∧ combineThenSimp n .and ⟨L, .name s⟩ ⟨L, tu⟩ = .ok (some r))
    ∧ (∀ s t u : String,
      ∃ st tu r : Expr,
        dispatchBinop n .or ⟨L, .name s⟩ ⟨L, .name t⟩ = .ok (some st)
        ∧ dispatchBinop n .or ⟨L, .name t⟩ ⟨L, .name u⟩ = .ok (some tu)
        ∧ combineThenSimp n .or ⟨L, st⟩ ⟨L, .name u⟩ = .ok (some r)
        ∧ combineThenSimp n .or ⟨L, .name s⟩ ⟨L, tu⟩ = .ok (some r)) := by
  refine ⟨?_, ?_, ?_⟩
  · intro a b
    constructor
    · unfold combineThenSimp
      rw [dispatchBinop_comm L n .and a b
        (fun x y => by rw [show mkOp .and x y = .and x y from rfl,
          show mkOp .and y x = .and y x from rfl, simplify_and, simplify_and,
          andSimp_comm L hB])]
    · unfold combineThenSimp
      rw [dispatchBinop_comm L n .or a b
        (fun x y => by rw [show mkOp .or x y = .or x y from rfl,
          show mkOp .or y x = .or y x from rfl, simplify_or, simplify_or,
          orSimp_comm L hB])]
  · intro s t u
    have hn1 : ∀ x ∈ [Expr.name s], IsName x := by
      intro x hx
      simp only [List.mem_singleton] at hx
      exact ⟨s, hx⟩
    have hn2 : ∀ x ∈ [Expr.name t], IsName x := by
      intro x hx
      simp only [List.mem_singleton] at hx
      exact ⟨t, hx⟩
    have hn3 : ∀ x ∈ [Expr.name u], IsName x := by
      intro x hx
      simp only [List.mem_singleton] at hx
      exact ⟨u, hx⟩
    have hn12 : ∀ x ∈ [Expr.name s, Expr.name t], IsName x := by
      intro x hx
      simp only [List.mem_cons, List.mem_singleton, List.not_mem_nil, or_false]
        at hx
      rcases hx with rfl | rfl
      · exact ⟨s, rfl⟩
      · exact ⟨t, rfl⟩
    have hn23 : ∀ x ∈ [Expr.name t, Expr.name u], IsName x := by
      intro x hx
      simp only [List.mem_cons, List.mem_singleton, List.not_mem_nil, or_false]
        at hx
      rcases hx with rfl | rfl
      · exact ⟨t, rfl⟩
      · exact ⟨u, rfl⟩
    refine ⟨normAnd [.name s, .name t], normAnd [.name t, .name u],
      normAnd [.name s, .name t, .name u], ?_, ?_, ?_, ?_⟩
    · have h := dispatch_and_norm n L hA hn1 hn2 (by simp) (by simp)
      rw [normAnd_singleton, normAnd_singleton] at h
      exact h
    · have h := dispatch_and_norm n L hA hn2 hn3 (by simp) (by simp)
      rw [normAnd_singleton, normAnd_singleton] at h
      exact h
    · have h := dispatch_and_norm n L hA hn12 hn3 (by simp) (by simp)
      rw [normAnd_singleton] at h
      unfold combineThenSimp
      rw [h]
      show Except.ok (simplify L n (normAnd ([Expr.name s, Expr.name t] ++ [Expr.name u]))) = _
      rw [normAnd_fixed L n (l := [Expr.name s, Expr.name t] ++ [Expr.name u])
        (by
          intro x hx
          simp only [List.mem_append] at hx
          rcases hx with hx | hx
          · exact hn12 x hx
          · exact hn3 x hx)]
      rfl
    · have h := dispatch_and_norm n L hA hn1 hn23 (by simp) (by simp)
      rw [normAnd_singleton] at h
      unfold combineThenSimp
      rw [h]
      show Except.ok (simplify L n (normAnd ([Expr.name s] ++ [Expr.name t, Expr.name u]))) = _
      rw [normAnd_fixed L n (l := [Expr.name s] ++ [Expr.name t, Expr.name u])
        (by
          intro x hx
          simp only [List.mem_append] at hx
          rcases hx with hx | hx
          · exact hn1 x hx
          · exact hn23 x hx)]
      rfl
  · intro s t u
    have hn1 : ∀ x ∈ [Expr.name s], IsName x := by
      intro x hx
      simp only [List.mem_singleton] at hx
      exact ⟨s, hx⟩
    have hn2 : ∀ x ∈ [Expr.name t], IsName x := by
      intro x hx
      simp only [List.mem_singleton] at hx
      exact ⟨t, hx⟩
    have hn3 : ∀ x ∈ [Expr.name u], IsName x := by
      intro x hx
      simp only [List.mem_singleton] at hx
      exact ⟨u, hx⟩
    have hn12 : ∀ x ∈ [Expr.name s, Expr.name t], IsName x := by
      intro x hx
      simp only [List.mem_cons, List.mem_singleton, List.not_mem_nil, or_false]
        at hx
      rcases hx with rfl | rfl
      · exact ⟨s, rfl⟩
      · exact ⟨t, rfl⟩
    have hn23 : ∀ x ∈ [Expr.name t, Expr.name u], IsName x := by
      intro x hx
      simp only [List.mem_cons, List.mem_singleton, List.not_mem_nil, or_false]
        at hx
      rcases hx with rfl | rfl
      · exact ⟨t, rfl⟩
      · exact ⟨u, rfl⟩
    refine ⟨normOr [.name s, .name t], normOr [.name t, .name u],
      normOr [.name s, .name t, .name u], ?_, ?_, ?_, ?_⟩
    · have h := dispatch_or_norm n L hO hn1 hn2 (by simp) (by simp)
      rw [normOr_singleton, normOr_singleton] at h
      exact h
    · have h := dispatch_or_norm n L hO hn2 hn3 (by simp) (by simp)
      rw [normOr_singleton, normOr_singleton] at h
      exact h
    · have h := dispatch_or_norm n L hO hn12 hn3 (by simp) (by simp)
      rw [normOr_singleton] at h
      unfold combineThenSimp
      rw [h]
      show Except.ok (simplify L n (normOr ([Expr.name s, Expr.name t] ++ [Expr.name u]))) = _
      rw [normOr_fixed L n (l := [Expr.name s, Expr.name t] ++ [Expr.name u])
        (by
          intro x hx
          simp only [List.mem_append] at hx
          rcases hx with hx | hx
          · exact hn12 x hx
          · exact hn3 x hx)]
      rfl
    · have h := dispatch_or_norm n L hO hn1 hn23 (by simp) (by simp)
      rw [normOr_singleton] at h
      unfold combineThenSimp
      rw [h]
      show Except.ok (simplify L n (normOr ([Expr.name s] ++ [Expr.name t, Expr.name u]))) = _
      rw [normOr_fixed L n (l := [Expr.name s] ++ [Expr.name t, Expr.name u])
        (by
          intro x hx
          simp only [List.mem_append] at hx
          rcases hx with hx | hx
          · exact hn1 x hx
          · exact hn23 x hx)]
      rfl

theorem C4_and_or_canonicalization_witness :
    combineThenSimp 0 .and ⟨fullLang, .name "p"⟩ ⟨fullLang, .name "q"⟩
      = combineThenSimp 0 .and ⟨fullLang, .name "q"⟩ ⟨fullLang, .name "p"⟩ :=
  ((C4_and_or_canonicalization fullLang 0 rfl rfl rfl).1
    (.name "p") (.name "q")).1

/-- `x | x | y` built raw (not via the eager overloads): its two nestings
have equal keys but different shapes. -/
def c4tt : Expr := .or (.or (.name "x") (.name "x")) (.name "y")

/-- C4 counterexample.  Associativity fails for general operands: with
`a = And(tt, tt)` (where `tt = x | x | y` raw), `b = True`, `c = z`, the
two association orders of `a & b & c` simplify to trees with different
keys — the `key(left) == key(right)` short-circuit returns the raw,
un-normalised `tt` subtree in one order but not the other. -/
theorem C4_counterexample :
    dispatchBinop 9 .and ⟨fullLang, .and c4tt c4tt⟩ ⟨fullLang, .bool true⟩
      = .ok (some c4tt)
    ∧ combineThenSimp 9 .and ⟨fullLang, c4tt⟩ ⟨fullLang, .name "z"⟩
      = .ok (some (.and (.name "z") (.or (.name "x") (.name "y"))))
    ∧ dispatchBinop 9 .and ⟨fullLang, .bool true⟩ ⟨fullLang, .name "z"⟩
      = .ok (some (.name "z"))
    ∧ combineThenSimp 9 .and ⟨fullLang, .and c4tt c4tt⟩ ⟨fullLang, .name "z"⟩
      = .ok (some (.and (.name "z") c4tt))
    ∧ key (Expr.and (.name "z") (.or (.name "x") (.name "y")))
      ≠ key (Expr.and (.name "z") c4tt) :=
  ⟨rfl, rfl, rfl, rfl, by decide⟩

/-- C5: the Null short-circuit of `_dispatch_binop` is uniform over every
binary operator: in a Null-equipped dialect, `Null op Null` is the Null
singleton and `Null op X` / `X op Null` return `simplify(X)`, for every
operator `op` — no operator-registration hypothesis is needed because the
Null check precedes the unsupported-operator check. -/
theorem C5_null_short_circuit (L : Lang) (n : Nat) (op : BOp) (x : Expr)
    (hN : L.hasNull = true) (hx : x ≠ Expr.null) :
    dispatchBinop n op ⟨L, .null⟩ ⟨L, .null⟩ = .ok (some .null)
    ∧ dispatchBinop n op ⟨L, .null⟩ ⟨L, x⟩ = .ok (simplify L n x)
    ∧ dispatchBinop n op ⟨L, x⟩ ⟨L, .null⟩ = .ok (simplify L n x) := by
  have hxn : isNullE x = false := by simp [isNullE, hx]
  refine ⟨?_, ?_, ?_⟩ <;> (unfold dispatchBinop; rw [if_neg (by simp)]; simp only)
  · rw [if_pos (by simp [isNullE, hN])]
  · rw [if_neg (by simp [hxn]), if_pos (by simp [isNullE, hN])]
  · rw [if_neg (by simp [hxn]), if_neg (by simp [hxn]),
      if_pos (by simp [isNullE, hN])]

theorem C5_null_short_circuit_witness :
    dispatchBinop 1 .add ⟨fullLang, .null⟩ ⟨fullLang, .null⟩ = .ok (some .null)
    ∧ dispatchBinop 1 .add ⟨fullLang, .null⟩ ⟨fullLang, .name "v"⟩
        = .ok (simplify fullLang 1 (.name "v"))
    ∧ dispatchBinop 1 .add ⟨fullLang, .name "v"⟩ ⟨fullLang, .null⟩
        = .ok (simplify fullLang 1 (.name "v")) :=
  C5_null_short_circuit fullLang 1 .add (.name "v") rfl (by decide)

/-- C6: combining two expressions whose `Language` identities differ
raises the dialect-mismatch `TypeError` at dispatch time before any
simplification, for every binary operator; and constructing a unary or
binary operator node over a child of another dialect raises at
construction time. -/
theorem C6_dialect_isolation (n : Nat) (op : BOp) (a b : LExpr)
    (h : a.lang.id ≠ b.lang.id) :
    dispatchBinop n op a b
      = .error "Cannot combine expressions with different Language instances"
    ∧ mkBinaryOp a.lang op a b
      = .error "Mismatched Language in binary operator"
    ∧ mkUnaryOp a.lang b
      = .error "Mismatched Language in unary operator" := by
  refine ⟨?_, ?_, ?_⟩
  · unfold dispatchBinop
    rw [if_pos h]
  · unfold mkBinaryOp
    rw [if_pos (by simp [h])]
  · unfold mkUnaryOp
    rw [if_pos h]

theorem C6_dialect_isolation_witness :
    dispatchBinop 1 .mul ⟨fullLang, .name "k"⟩ ⟨otherLang, .name "m"⟩
      = .error "Cannot combine expressions with different Language instances"
    ∧ mkBinaryOp fullLang .mul ⟨fullLang, .name "k"⟩ ⟨otherLang, .name "m"⟩
      = .error "Mismatched Language in binary operator"
    ∧ mkUnaryOp fullLang ⟨otherLang, .name "m"⟩
      = .error "Mismatched Language in unary operator" :=
  C6_dialect_isolation 1 .mul ⟨fullLang, .name "k"⟩ ⟨otherLang, .name "m"⟩
    (by decide)

/-- A dialect with logic types only: no Not, no arithmetic classes. -/
def noNotLang : Lang :=
  { id := 2, hasBool := true, hasName := true, hasNull := true,
    hasInt := false, hasString := false, hasNot := false, hasAnd := true,
    hasOr := true, hasAdd := false, hasSub := false, hasMul := false,
    hasDiv := false }

/-- A valid dialect (the five mandatory slots bound, Not included) that
never registered any of Add, Sub, Mul, Div. -/
def noArithLang : Lang :=
  { id := 3, hasBool := true, hasName := true, hasNull := true,
    hasInt := false, hasString := false, hasNot := true, hasAnd := true,
    hasOr := true, hasAdd := false, hasSub := false, hasMul := false,
    hasDiv := false }

/-- C7: two independent error behaviors on a same-dialect non-Null pair.
If the dialect never registered the requested operator's class, dispatch
fails with the missing-capability message — whether or not Not is bound.
Independently, `~` with Not unregistered fails with the logical-NOT
message.  Neither is a generic attribute error. -/
theorem C7_unsupported_operator (L : Lang) (n : Nat) (op : BOp) (a b : Expr)
    (ha : a ≠ Expr.null) (hb : b ≠ Expr.null) :
    (opReg L op = false →
      dispatchBinop n op ⟨L, a⟩ ⟨L, b⟩
        = .error "This language does not define this operator")
    ∧ (L.hasNot = false →
      invertOp n ⟨L, a⟩
        = .error "This language does not define logical NOT") := by
  have hxa : isNullE a = false := by simp [isNullE, ha]
  have hxb : isNullE b = false := by simp [isNullE, hb]
  constructor
  · intro hreg
    unfold dispatchBinop
    rw [if_neg (by simp)]
    simp only
    rw [if_neg (by simp [hxa]), if_neg (by simp [hxa]),
      if_neg (by simp [hxb]), if_pos hreg]
  · intro hnot
    unfold invertOp
    rw [if_neg (by simp [hxa]), if_pos hnot]

theorem C7_unsupported_operator_witness :
    dispatchBinop 1 .add ⟨noArithLang, .name "p"⟩ ⟨noArithLang, .name "q"⟩
      = .error "This language does not define this operator"
    ∧ invertOp 1 ⟨noNotLang, .name "p"⟩
      = .error "This language does not define logical NOT" :=
  ⟨(C7_unsupported_operator noArithLang 1 .add (.name "p") (.name "q")
      (by decide) (by decide)).1 rfl,
    (C7_unsupported_operator noNotLang 1 .add (.name "p") (.name "q")
      (by decide) (by decide)).2 rfl⟩

/-- C10: `__eq__` compares structural keys only and ignores dialect
identity: any key-equal pair compares equal whatever their `Language`s,
including Name/Bool pairs from two different dialects — the very pairs
the dispatcher refuses to combine. -/
theorem C10_eq_ignores_dialect (L1 L2 : Lang) (n : Nat) (op : BOp) (s : String)
    (hid : L1.id ≠ L2.id) :
    (∀ (La Lb : Lang) (a b : Expr), key a = key b →
      veq ⟨La, a⟩ ⟨Lb, b⟩ = true)
    ∧ veq ⟨L1, .name s⟩ ⟨L2, .name s⟩ = true
    ∧ veq ⟨L1, .bool true⟩ ⟨L2, .bool true⟩ = true
    ∧ dispatchBinop n op ⟨L1, .name s⟩ ⟨L2, .name s⟩
      = .error "Cannot combine expressions with different Language instances" := by
  refine ⟨?_, ?_, ?_, ?_⟩
  · intro La Lb a b h
    simp [veq, h]
  · simp [veq]
  · simp [veq]
  · unfold dispatchBinop
    rw [if_pos hid]

theorem C10_eq_ignores_dialect_witness :
    (∀ (La Lb : Lang) (a b : Expr), key a = key b →
      veq ⟨La, a⟩ ⟨Lb, b⟩ = true)
    ∧ veq ⟨fullLang, .name "n"⟩ ⟨otherLang, .name "n"⟩ = true
    ∧ veq ⟨fullLang, .bool true⟩ ⟨otherLang, .bool true⟩ = true
    ∧ dispatchBinop 1 .and ⟨fullLang, .name "n"⟩ ⟨otherLang, .name "n"⟩
      = .error "Cannot combine expressions with different Language instances" :=
  C10_eq_ignores_dialect fullLang otherLang 1 .and "n" (by decide)

/-- C9: when ADD simplification cancels every term, `VarAdd.simplify`
returns the original Add node itself, not a zero constant: for every
integer `v`, `Int(v) + Int(-v)` simplifies to the very `Add` node (which
is not an Int constant), and a pair of linear terms with cancelling
coefficients (`2t + (-2)t`) likewise comes back unchanged. -/
theorem C9_cancellation_returns_self (L : Lang) (n : Nat) :
    (∀ v : Int,
      simplify L (n + 1) (.add (.int v) (.int (-v)))
        = some (.add (.int v) (.int (-v)))
      ∧ ∀ w : Int, Expr.add (.int v) (.int (-v)) ≠ .int w)
    ∧ simplify fullLang 3
        (.add (.mul (.int 2) (.name "t")) (.mul (.int (-2)) (.name "t")))
      = some (.add (.mul (.int 2) (.name "t")) (.mul (.int (-2)) (.name "t"))) := by
  refine ⟨fun v => ⟨?_, fun w => by simp⟩, by decide⟩
  have h0 : (0 : Int) + v + -v = 0 := by ring
  simp [simplify, flattenSum, walkAdd, collectLinear, collectLinStep,
    constIntOf, rebuildTermsWith, buildLinTerms, List.insertionSort, h0]

/-- C8 (amended).  The arithmetic-folding examples hold with `x` an
integer constant or a variable: the eager `Int(2) + Int(3)` dispatch
yields `Int(5)`; `Name(s) - Name(s)` simplifies to `Int(0)` in an
Int-equipped dialect; and `2x + 3x` simplifies to the same tree as
`5x`.  The unrestricted "`simplify(x - x)` equals `Int(0)` for every
expression `x`" fails for Bool constants (see the counterexample):
same-typed constant subtraction folds in the constant's own class
first, so `True - True` is `False`, not `Int(0)`. -/
theorem C8_arithmetic_folding (L : Lang) (n : Nat) (s : String)
    (hI : L.hasInt = true) (hA : L.hasAdd = true) :
    dispatchBinop (n + 1) .add ⟨L, .int 2⟩ ⟨L, .int 3⟩ = .ok (some (.int 5))
    ∧ simplify L (n + 1) (.sub (.name s) (.name s)) = some (.int 0)
    ∧ simplify fullLang 3
        (.add (.mul (.int 2) (.name "x")) (.mul (.int 3) (.name "x")))
      = some (.mul (.int 5) (.name "x"))
    ∧ simplify fullLang 3 (.mul (.int 5) (.name "x"))
      = some (.mul (.int 5) (.name "x")) := by
  refine ⟨?_, ?_, by decide, by decide⟩
  · unfold dispatchBinop
    rw [if_neg (by simp)]
    simp only
    rw [if_neg (by simp [isNullE]), if_neg (by simp [isNullE]),
      if_neg (by simp [isNullE]), if_neg (by simp [opReg, hA]),
      simplify_int, simplify_int]
    show Except.ok (simplify L (n + 1) (.add (.int 2) (.int 3))) = _
    simp [simplify, flattenSum, walkAdd, collectLinear, collectLinStep,
      constIntOf, rebuildTermsWith, buildLinTerms, List.insertionSort, mkConst]
  · simp [simplify, constIntOf, key, hI]

/-- C8 counterexample.  `True − True` built as a Sub node: same-typed
constants fold inside their own class, so `simplify(x - x)` for
`x = True` is the Bool constant `False`, not `Int(0)`. -/
theorem C8_counterexample :
    simplify fullLang 1 (.sub (.bool true) (.bool true)) = some (.bool false)
    ∧ (Expr.bool false) ≠ Expr.int 0 :=
  ⟨by decide, by decide⟩

theorem C8_arithmetic_folding_witness :
    dispatchBinop 1 .add ⟨fullLang, .int 2⟩ ⟨fullLang, .int 3⟩
      = .ok (some (.int 5))
    ∧ simplify fullLang 1 (.sub (.name "y") (.name "y")) = some (.int 0)
    ∧ simplify fullLang 3
        (.add (.mul (.int 2) (.name "x")) (.mul (.int 3) (.name "x")))
      = some (.mul (.int 5) (.name "x"))
    ∧ simplify fullLang 3 (.mul (.int 5) (.name "x"))
      = some (.mul (.int 5) (.name "x")) :=
  C8_arithmetic_folding fullLang 0 "y" rfl rfl

/-!
## The core variant (src/dsl/core/var.py)

The generic core classes give And/Or a *flattened, sorted* key payload
(core/var.py:352-358, 528-536): `("and", tuple(sorted(t.key() for t in
flatten(left, right))))`.  The expression grammar there is Const, Name,
Not, And, Or; keys are nested tuples ordered by Python tuple comparison
(tags compare as the strings "and" < "const" < "name" < "not" < "or",
shorter tuples precede their extensions).
-/

inductive CExpr where
  | const (b : Bool)
  | name (s : String)
  | not (c : CExpr)
  | and (l r : CExpr)
  | or (l r : CExpr)
deriving DecidableEq, Repr


/-- Key tuples of the core classes (core/var.py:251-252, 295-296,
312-313, 352-358, 528-536). -/
inductive CKey where
  | cconst (b : Bool)
  | cname (s : List Char)
  | cnot (k : CKey)
  | cand (ks : List CKey)
  | cor (ks : List CKey)

/-- Rank of the leading tag in Python string order:
`"and" < "const" < "name" < "not" < "or"`. -/
def ctagRank : CKey → Nat
  | .cand _ => 0
  | .cconst _ => 1
  | .cname _ => 2
  | .cnot _ => 3
  | .cor _ => 4

mutual
/-- Python comparison of two core key tuples: leading tag string first,
then the payload; `False < True` for Const, code-point order for Name,
lexicographic tuple order (with the shorter-prefix rule) for the
flattened And/Or payloads. -/
def ckeyCmp : CKey → CKey → Ordering
  | .cconst a, .cconst b => cmpv a b
  | .cname a, .cname b => cmpv a b
  | .cnot a, .cnot b => ckeyCmp a b
  | .cand a, .cand b => ckeyCmpList a b
  | .cor a, .cor b => ckeyCmpList a b
  | a, b => cmpv (ctagRank a) (ctagRank b)

def ckeyCmpList : List CKey → List CKey → Ordering
  | [], [] => .eq
  | [], _ :: _ => .lt
  | _ :: _, [] => .gt
  | a :: as, b :: bs => (ckeyCmp a b).then (ckeyCmpList as bs)
end

def ckeyLe (a b : CKey) : Bool := ckeyCmp a b ≠ Ordering.gt

def ckeyR (a b : CKey) : Prop := ckeyLe a b = true

instance : DecidableRel ckeyR :=
  fun a b => inferInstanceAs (Decidable (ckeyLe a b = true))

mutual
/-- Order-embedding of core keys into the final variant's key type,
used to transfer the order metatheory. -/
def phi : CKey → Key
  | .cconst b => .kbool b
  | .cname s => .kname s
  | .cnot k => .knot (phi k)
  | .cand ks => .kand (phiL ks) .knull
  | .cor ks => .kor (phiL ks) .knull

def phiL : List CKey → Key
  | [] => .knull
  | k :: ks => .kor (phi k) (phiL ks)
end

theorem ordering_then_eq (o : Ordering) : o.then Ordering.eq = o := by
  cases o <;> rfl

mutual
theorem ckeyCmp_phi (a b : CKey) : ckeyCmp a b = keyCmp (phi a) (phi b) := by
  cases a <;> cases b <;>
    simp only [ckeyCmp, phi, keyCmp, ctagRank, tagRank] <;>
    first
    | rfl
    | decide
    | (apply ckeyCmp_phi)
    | (rw [ordering_then_eq]; apply ckeyCmpList_phi)
termination_by sizeOf a

theorem ckeyCmpList_phi (a b : List CKey) :
    ckeyCmpList a b = keyCmp (phiL a) (phiL b) := by
  cases a with
  | nil =>
    cases b with
    | nil => simp only [ckeyCmpList, phiL, keyCmp]
    | cons y ys =>
      simp only [ckeyCmpList, phiL]
      rfl
  | cons x xs =>
    cases b with
    | nil =>
      simp only [ckeyCmpList, phiL]
      rfl
    | cons y ys =>
      simp only [ckeyCmpList, phiL, keyCmp]
      rw [ckeyCmp_phi x y, ckeyCmpList_phi xs ys]
termination_by sizeOf a
end

mutual
theorem phi_inj (a b : CKey) (h : phi a = phi b) : a = b := by
  cases a <;> cases b <;> simp only [phi] at h
  case cconst.cconst x y =>
    injection h with h1
    rw [h1]
  case cname.cname x y =>
    injection h with h1
    rw [h1]
  case cnot.cnot k1 k2 =>
    injection h with h1
    exact congrArg CKey.cnot (phi_inj k1 k2 h1)
  case cand.cand ks1 ks2 =>
    injection h with h1 h2
    exact congrArg CKey.cand (phiL_inj ks1 ks2 h1)
  case cor.cor ks1 ks2 =>
    injection h with h1 h2
    exact congrArg CKey.cor (phiL_inj ks1 ks2 h1)
  all_goals exact absurd h (by simp)
termination_by sizeOf a

theorem phiL_inj (a b : List CKey) (h : phiL a = phiL b) : a = b := by
  cases a with
  | nil =>
    cases b with
    | nil => rfl
    | cons y ys =>
      simp only [phiL] at h
      exact absurd h (by simp)
  | cons x xs =>
    cases b with
    | nil =>
      simp only [phiL] at h
      exact absurd h (by simp)
    | cons y ys =>
      simp only [phiL] at h
      injection h with h1 h2
      rw [phi_inj x y h1, phiL_inj xs ys h2]
termination_by sizeOf a
end

instance : DecidableEq CKey :=
  fun a b => decidable_of_iff (phi a = phi b) ⟨phi_inj a b, congrArg phi⟩

theorem ckeyLe_phi (a b : CKey) : ckeyLe a b = keyLe (phi a) (phi b) := by
  unfold ckeyLe keyLe
  rw [ckeyCmp_phi]

instance : IsTrans CKey ckeyR :=
  ⟨fun a b c h1 h2 => by
    unfold ckeyR at *
    rw [ckeyLe_phi] at h1 h2 ⊢
    exact keyLe_trans h1 h2⟩

instance : IsTotal CKey ckeyR :=
  ⟨fun a b => by
    unfold ckeyR
    rw [ckeyLe_phi, ckeyLe_phi]
    exact keyLe_total (phi a) (phi b)⟩

instance : IsAntisymm CKey ckeyR :=
  ⟨fun a b h1 h2 => by
    unfold ckeyR at h1 h2
    rw [ckeyLe_phi] at h1 h2
    exact phi_inj a b (keyLe_antisymm h1 h2)⟩

/-- `sorted(...)` over core key tuples. -/
def sortK (l : List CKey) : List CKey := List.insertionSort ckeyR l

theorem sortK_perm_eq {l1 l2 : List CKey} (h : l1.Perm l2) :
    sortK l1 = sortK l2 :=
  List.eq_of_perm_of_sorted
    (((List.perm_insertionSort ckeyR l1).trans h).trans
      (List.perm_insertionSort ckeyR l2).symm)
    (List.sorted_insertionSort ckeyR l1) (List.sorted_insertionSort ckeyR l2)

/-- The `seen`-set dedup of the core `_flatten_terms` closures
(core/var.py:418-444, 594-620), acting on the key tuples. -/
def dedupCK : List CKey → List CKey → List CKey
  | _, [] => []
  | seen, k :: rest =>
    if k ∈ seen then dedupCK seen rest
    else k :: dedupCK (k :: seen) rest

theorem mem_dedupCK {x : CKey} : ∀ {seen l : List CKey},
    x ∈ dedupCK seen l ↔ x ∈ l ∧ x ∉ seen := by
  intro seen l
  induction l generalizing seen with
  | nil => simp [dedupCK]
  | cons e rest ih =>
    by_cases h : e ∈ seen
    · rw [dedupCK, if_pos h, ih]
      constructor
      · exact fun ⟨h1, h2⟩ => ⟨List.mem_cons_of_mem _ h1, h2⟩
      · rintro ⟨h1, h2⟩
        rcases List.mem_cons.mp h1 with rfl | h1
        · exact absurd h h2
        · exact ⟨h1, h2⟩
    · rw [dedupCK, if_neg h]
      constructor
      · intro hx
        rcases List.mem_cons.mp hx with rfl | hx
        · exact ⟨List.mem_cons_self _ _, h⟩
        · obtain ⟨h1, h2⟩ := ih.mp hx
          exact ⟨List.mem_cons_of_mem _ h1,
            fun hs => h2 (List.mem_cons_of_mem _ hs)⟩
      · rintro ⟨h1, h2⟩
        rcases List.mem_cons.mp h1 with rfl | h1
        · exact List.mem_cons_self _ _
        · by_cases hxe : x = e
          · subst hxe
            exact List.mem_cons_self _ _
          · exact List.mem_cons_of_mem _ (ih.mpr ⟨h1, by
              intro hs
              rcases List.mem_cons.mp hs with h3 | h3
              · exact hxe h3
              · exact h2 h3⟩)

theorem dedupCK_nodup : ∀ (seen l : List CKey), (dedupCK seen l).Nodup := by
  intro seen l
  induction l generalizing seen with
  | nil => simp [dedupCK]
  | cons e rest ih =>
    by_cases h : e ∈ seen
    · rw [dedupCK, if_pos h]
      exact ih seen
    · rw [dedupCK, if_neg h]
      refine List.nodup_cons.mpr ⟨?_, ih (e :: seen)⟩
      intro hmem
      exact (mem_dedupCK.mp hmem).2 (List.mem_cons_self _ _)

theorem dedupCK_perm {l1 l2 : List CKey} (h : l1.Perm l2) :
    (dedupCK [] l1).Perm (dedupCK [] l2) := by
  rw [List.perm_ext_iff_of_nodup (dedupCK_nodup [] l1) (dedupCK_nodup [] l2)]
  intro x
  rw [mem_dedupCK, mem_dedupCK]
  simp [h.mem_iff]

/-- `walk` of the core And `_flatten_terms` (core/var.py:435-440). -/
def cwalkAnd : CExpr → List CExpr
  | .and l r => cwalkAnd l ++ cwalkAnd r
  | e => [e]

/-- `walk` of the core Or `_flatten_terms` (core/var.py:611-616). -/
def cwalkOr : CExpr → List CExpr
  | .or l r => cwalkOr l ++ cwalkOr r
  | e => [e]

theorem mem_cwalkAnd_size {x : CExpr} :
    ∀ {e : CExpr}, x ∈ cwalkAnd e → sizeOf x ≤ sizeOf e := by
  intro e
  induction e with
  | and l r ihl ihr =>
    intro h
    simp only [cwalkAnd, List.mem_append] at h
    have : sizeOf (CExpr.and l r) = 1 + sizeOf l + sizeOf r := by simp
    rcases h with h | h
    · have := ihl h
      omega
    · have := ihr h
      omega
  | const b =>
    intro h
    simp only [cwalkAnd, List.mem_singleton] at h
    exact h ▸ le_refl _
  | name s =>
    intro h
    simp only [cwalkAnd, List.mem_singleton] at h
    exact h ▸ le_refl _
  | not c _ =>
    intro h
    simp only [cwalkAnd, List.mem_singleton] at h
    exact h ▸ le_refl _
  | or l r _ _ =>
    intro h
    simp only [cwalkAnd, List.mem_singleton] at h
    exact h ▸ le_refl _

theorem mem_cwalkOr_size {x : CExpr} :
    ∀ {e : CExpr}, x ∈ cwalkOr e → sizeOf x ≤ sizeOf e := by
  intro e
  induction e with
  | or l r ihl ihr =>
    intro h
    simp only [cwalkOr, List.mem_append] at h
    have : sizeOf (CExpr.or l r) = 1 + sizeOf l + sizeOf r := by simp
    rcases h with h | h
    · have := ihl h
      omega
    · have := ihr h
      omega
  | const b =>
    intro h
    simp only [cwalkOr, List.mem_singleton] at h
    exact h ▸ le_refl _
  | name s =>
    intro h
    simp only [cwalkOr, List.mem_singleton] at h
    exact h ▸ le_refl _
  | not c _ =>
    intro h
    simp only [cwalkOr, List.mem_singleton] at h
    exact h ▸ le_refl _
  | and l r _ _ =>
    intro h
    simp only [cwalkOr, List.mem_singleton] at h
    exact h ▸ le_refl _

/-- The core `key()` (core/var.py:144-146, 251-252, 295-296, 312-313,
352-358, 528-536): leaves and Not are plain tagged tuples; And/Or flatten
same-operator chains, drop the absorbing constant, dedup by key, sort. -/
def keyC : CExpr → CKey
  | .const b => .cconst b
  | .name s => .cname s.data
  | .not c => .cnot (keyC c)
  | .and a b =>
    .cand (sortK (dedupCK []
      (((cwalkAnd a ++ cwalkAnd b).attach.map fun x => keyC x.1).filter
        (fun k => k ≠ .cconst true))))
  | .or a b =>
    .cor (sortK (dedupCK []
      (((cwalkOr a ++ cwalkOr b).attach.map fun x => keyC x.1).filter
        (fun k => k ≠ .cconst false))))
termination_by e => sizeOf e
decreasing_by
  all_goals simp_wf
  all_goals try omega
  all_goals
    first
    | (have hm := x.2
       simp only [List.mem_append] at hm
       rcases hm with hm | hm
       · have := mem_cwalkAnd_size hm
         omega
       · have := mem_cwalkAnd_size hm
         omega)
    | (have hm := x.2
       simp only [List.mem_append] at hm
       rcases hm with hm | hm
       · have := mem_cwalkOr_size hm
         omega
       · have := mem_cwalkOr_size hm
         omega)

theorem attach_map_keyC (l : List CExpr) :
    (l.attach.map fun x => keyC x.1) = l.map keyC :=
  List.attach_map_val l keyC

theorem keyC_and (a b : CExpr) :
    keyC (.and a b)
    = .cand (sortK (dedupCK []
        (((cwalkAnd a ++ cwalkAnd b).map keyC).filter
          (fun k => k ≠ .cconst true)))) := by
  rw [keyC, attach_map_keyC]

theorem keyC_or (a b : CExpr) :
    keyC (.or a b)
    = .cor (sortK (dedupCK []
        (((cwalkOr a ++ cwalkOr b).map keyC).filter
          (fun k => k ≠ .cconst false)))) := by
  rw [keyC, attach_map_keyC]

/-- C3: in the core classes, the And/Or `key()` payload is the flattened,
sorted, deduplicated tuple of term keys, so the raw nodes `And(a, b)` and
`And(b, a)` are already key-equal, and chains of one operator with
different nesting have equal keys — likewise for Or. -/
theorem C3_logic_key_canonical (a b c : CExpr) :
    keyC (.and a b) = keyC (.and b a)
    ∧ keyC (.or a b) = keyC (.or b a)
    ∧ keyC (.and (.and a b) c) = keyC (.and a (.and b c))
    ∧ keyC (.or (.or a b) c) = keyC (.or a (.or b c)) := by
  refine ⟨?_, ?_, ?_, ?_⟩
  · rw [keyC_and a b, keyC_and b a]
    exact congrArg CKey.cand (sortK_perm_eq (dedupCK_perm
      (List.Perm.filter _ ((List.perm_append_comm).map keyC))))
  · rw [keyC_or a b, keyC_or b a]
    exact congrArg CKey.cor (sortK_perm_eq (dedupCK_perm
      (List.Perm.filter _ ((List.perm_append_comm).map keyC))))
  · rw [keyC_and (.and a b) c, keyC_and a (.and b c),
      show cwalkAnd (.and a b) = cwalkAnd a ++ cwalkAnd b from rfl,
      show cwalkAnd (.and b c) = cwalkAnd b ++ cwalkAnd c from rfl,
      List.append_assoc]
  · rw [keyC_or (.or a b) c, keyC_or a (.or b c),
      show cwalkOr (.or a b) = cwalkOr a ++ cwalkOr b from rfl,
      show cwalkOr (.or b c) = cwalkOr b ++ cwalkOr c from rfl,
      List.append_assoc]
